import Mathlib

/-!
# Verification of `jasmin_mongo_logger` (reactor.py)

A shallow embedding of the event-processing pipeline of
`src/jasmin_mongo_logger/reactor.py`, together with proofs about the
properties claimed in the design document.

Documents handed to MongoDB are dynamically typed Python values (dicts,
lists, strings, bytes, ints, floats, `None`).  We model them with the
inductive type `Value`.  Python `dict`s are modelled as ordered
association lists with CPython semantics: assigning to an existing key
replaces its value in place, assigning a fresh key appends it at the
end, and `pop` removes the (unique) entry with that key.
-/

namespace JasminMongoLogger

abbrev Bytes := List Nat
abbrev Chars := List Char

/-- A Python dict key: the dicts built by `reactor.py` use string keys,
but `fix_keys` explicitly guards `isinstance(k, str)`, so we keep a
constructor for non-string keys as well. -/
inductive MKey where
  | kstr : Chars → MKey
  | kint : Int → MKey
deriving DecidableEq

/-- A dynamically typed Python value, restricted to the shapes that flow
through `reactor.py` (`None`, `str`, `int`, floats modelled as `Rat`,
`bytes`, `list`, `dict`). -/
inductive Value where
  | vnull : Value
  | vstr : Chars → Value
  | vint : Int → Value
  | vrat : Rat → Value
  | vbytes : Bytes → Value
  | vlist : List Value → Value
  | vdict : List (MKey × Value) → Value

abbrev Doc := List (MKey × Value)

mutual

/-- Boolean structural equality on `Value` (used to build `DecidableEq`). -/
def vbeq : Value → Value → Bool
  | .vnull, .vnull => true
  | .vstr s, .vstr t => decide (s = t)
  | .vint m, .vint n => decide (m = n)
  | .vrat p, .vrat q => decide (p = q)
  | .vbytes b, .vbytes c => decide (b = c)
  | .vlist xs, .vlist ys => vbeqL xs ys
  | .vdict ds, .vdict es => vbeqD ds es
  | _, _ => false

def vbeqL : List Value → List Value → Bool
  | [], [] => true
  | x :: xs, y :: ys => vbeq x y && vbeqL xs ys
  | _, _ => false

def vbeqD : Doc → Doc → Bool
  | [], [] => true
  | (k, v) :: ds, (l, w) :: es => decide (k = l) && vbeq v w && vbeqD ds es
  | _, _ => false

end

/-- Structural strong induction principle for `Value`, giving induction
hypotheses for every member of a nested list or dict. -/
def Value.indOn {P : Value → Prop}
    (hnull : P .vnull) (hstr : ∀ s, P (.vstr s)) (hint : ∀ n, P (.vint n))
    (hrat : ∀ q, P (.vrat q)) (hbytes : ∀ b, P (.vbytes b))
    (hlist : ∀ xs, (∀ v, v ∈ xs → P v) → P (.vlist xs))
    (hdict : ∀ kvs, (∀ k v, (k, v) ∈ kvs → P v) → P (.vdict kvs)) :
    ∀ v, P v
  | .vnull => hnull
  | .vstr s => hstr s
  | .vint n => hint n
  | .vrat q => hrat q
  | .vbytes b => hbytes b
  | .vlist xs => hlist xs (fun v hv =>
      Value.indOn hnull hstr hint hrat hbytes hlist hdict v)
  | .vdict kvs => hdict kvs (fun k v hv =>
      Value.indOn hnull hstr hint hrat hbytes hlist hdict v)
termination_by v => sizeOf v
decreasing_by
  · have h := List.sizeOf_lt_of_mem hv
    simp only [Value.vlist.sizeOf_spec]
    omega
  · have h := List.sizeOf_lt_of_mem hv
    simp only [Prod.mk.sizeOf_spec] at h
    simp only [Value.vdict.sizeOf_spec]
    omega

theorem vbeq_iff : ∀ a b : Value, vbeq a b = true ↔ a = b := by
  intro a
  induction a using Value.indOn with
  | hnull => intro b; cases b <;> simp [vbeq]
  | hstr s => intro b; cases b <;> simp [vbeq]
  | hint n => intro b; cases b <;> simp [vbeq]
  | hrat q => intro b; cases b <;> simp [vbeq]
  | hbytes c => intro b; cases b <;> simp [vbeq]
  | hlist xs ih =>
    intro b
    cases b <;> simp [vbeq]
    case vlist ys =>
      induction xs generalizing ys with
      | nil => cases ys <;> simp [vbeqL]
      | cons x xs ihx =>
        cases ys with
        | nil => simp [vbeqL]
        | cons y ys =>
          simp only [vbeqL, Bool.and_eq_true, List.cons.injEq]
          rw [ih x (by simp), ihx (fun v hv => ih v (by simp [hv])) ys]
  | hdict kvs ih =>
    intro b
    cases b <;> simp [vbeq]
    case vdict es =>
      induction kvs generalizing es with
      | nil => cases es <;> simp [vbeqD]
      | cons kv kvs ihx =>
        obtain ⟨k, v⟩ := kv
        cases es with
        | nil => simp [vbeqD]
        | cons lw es =>
          obtain ⟨l, w⟩ := lw
          simp only [vbeqD, Bool.and_eq_true, List.cons.injEq, decide_eq_true_eq,
            Prod.mk.injEq]
          rw [ih k v (List.mem_cons_self _ _),
            ihx (fun k v hv => ih k v (List.mem_cons_of_mem _ hv)) es]

instance : DecidableEq Value := fun a b => decidable_of_iff _ (vbeq_iff a b)

def kOf (s : String) : MKey := .kstr s.data

/-! ## CPython dict primitives on ordered association lists -/

/-- `d[k]` lookup (first occurrence). -/
def dGet (k : MKey) : Doc → Option Value
  | [] => none
  | (k₁, v₁) :: r => if k₁ = k then some v₁ else dGet k r

/-- `d[k] = v`: replace in place if the key exists, else append. -/
def dSet (k : MKey) (v : Value) : Doc → Doc
  | [] => [(k, v)]
  | (k₁, v₁) :: r => if k₁ = k then (k₁, v) :: r else (k₁, v₁) :: dSet k v r

/-- `d.pop(k)` (dropping the returned value): remove the entry with key `k`. -/
def dPop (k : MKey) : Doc → Doc
  | [] => []
  | (k₁, v₁) :: r => if k₁ = k then r else (k₁, v₁) :: dPop k r

/-- Membership of a key in a key list. -/
def kMemL (k : MKey) : List MKey → Bool
  | [] => false
  | k₁ :: r => decide (k₁ = k) || kMemL k r

/-- No duplicate keys (CPython dicts always satisfy this). -/
def kndL : List MKey → Bool
  | [] => true
  | k₁ :: r => !(kMemL k₁ r) && kndL r

def keyMem (k : MKey) (d : Doc) : Bool := kMemL k (d.map Prod.fst)

def keysNodupB (d : Doc) : Bool := kndL (d.map Prod.fst)

/-! ## Key rewriting characters (reactor.py lines 746-756)

The Python code computes, for a string key `k`:
```
new_key = k
if k.startswith("$"): new_key = new_key.replace("$", "dollar_")
if "." in k:          new_key = new_key.replace(".", "_")
if "-" in k:          new_key = new_key.replace("-", "_")
```
We model Python strings as `List Char` and `str.replace` for these
patterns directly. -/

/-- `k.startswith("$")`. -/
def pyStartsDollar : Chars → Bool
  | [] => false
  | c :: _ => decide (c = '$')

/-- `s.replace("$", "dollar_")`: every `$` becomes the 7 characters of
`dollar_` (single-character pattern, so no overlap subtleties). -/
def pyReplaceDollar : Chars → Chars
  | [] => []
  | c :: r => if c = '$' then ("dollar_".data) ++ pyReplaceDollar r
              else c :: pyReplaceDollar r

/-- `s.replace(c, r)` for one-character pattern and replacement. -/
def pyReplaceChar (c r : Char) (s : Chars) : Chars :=
  s.map (fun x => if x = c then r else x)

/-- The rewritten key `new_key` computed for an original key `k`
(guards test the original `k`, replacements apply to the accumulator,
exactly as in the source). -/
def fixedKeyChars (k : Chars) : Chars :=
  let n1 := if pyStartsDollar k then pyReplaceDollar k else k
  let n2 := if k.contains '.' then pyReplaceChar '.' '_' n1 else n1
  if k.contains '-' then pyReplaceChar '-' '_' n2 else n2

/-- A key that `fix_keys` leaves alone: it does not start with `$` and
contains neither `.` nor `-`.  (An interior `$` is *not* rewritten.) -/
def cleanChars (k : Chars) : Bool :=
  !(pyStartsDollar k) && !(k.contains '.') && !(k.contains '-')

def cleanMKey : MKey → Bool
  | .kstr s => cleanChars s
  | .kint _ => true

/-- Key check used by the original claim: no `$`, `.` or `-` anywhere. -/
def noBadMKey : MKey → Bool
  | .kstr s => !(s.contains '$') && !(s.contains '.') && !(s.contains '-')
  | .kint _ => true

/-! ## `replace_none` (reactor.py lines 725-738)

`replace_none` walks a list or dict and replaces `None` *children* with
the string `"None"`, recursing into nested containers; a scalar at top
level (including `None` itself) is returned unchanged.
`replaceNoneElem` is the transformation applied to a container child. -/

mutual

def replaceNoneElem : Value → Value
  | .vnull => .vstr ("None".data)
  | .vlist xs => .vlist (replaceNoneList xs)
  | .vdict kvs => .vdict (replaceNoneKVs kvs)
  | v => v

def replaceNoneList : List Value → List Value
  | [] => []
  | v :: vs => replaceNoneElem v :: replaceNoneList vs

def replaceNoneKVs : Doc → Doc
  | [] => []
  | (k, v) :: r => (k, replaceNoneElem v) :: replaceNoneKVs r

end

/-- `LogReactor.replace_none` itself. -/
def replace_none : Value → Value
  | .vlist xs => .vlist (replaceNoneList xs)
  | .vdict kvs => .vdict (replaceNoneKVs kvs)
  | v => v

/-! ## `fix_keys` (reactor.py lines 740-759)

The dict branch iterates over a snapshot `list(data.items())` of the
original entries.  For each entry `(k, v)`:
  * if `k` is a string whose rewritten form differs, the entry is moved:
    `data[new_key] = data.pop(k)`, and the recursive in-place
    `fix_keys(v)` then fixes the value now sitting at `new_key`;
  * otherwise the dict's keys are untouched, and the recursive
    `fix_keys(v)` is visible in the dict exactly when the slot at `k`
    still holds this entry's value (an earlier rename may have
    overwritten it, orphaning `v`); we model the in-place mutation by a
    conditional write-back.
The snapshot is enriched with the recursively fixed value of each entry
(`enrich`) so the fold itself (`fixPass`) is not recursive in `Value`. -/

def fixEntry (k : MKey) (v w : Value) (D : Doc) : Doc :=
  match k with
  | .kstr s =>
    if fixedKeyChars s ≠ s then
      dSet (.kstr (fixedKeyChars s)) w (dPop (.kstr s) D)
    else if dGet k D = some v then dSet k w D else D
  | .kint _ => if dGet k D = some v then dSet k w D else D

def fixPass : List (MKey × Value × Value) → Doc → Doc
  | [], D => D
  | (k, v, w) :: rest, D => fixPass rest (fixEntry k v w D)

mutual

/-- `LogReactor.fix_keys` (also the effect of `fix_keys` on a container
child: scalars are returned unchanged either way). -/
def fix_keys : Value → Value
  | .vlist xs => .vlist (fixKeysList xs)
  | .vdict kvs => .vdict (fixPass (enrich kvs) kvs)
  | v => v

def fixKeysList : List Value → List Value
  | [] => []
  | v :: vs => fix_keys v :: fixKeysList vs

/-- The iteration snapshot, with each entry's recursively fixed value. -/
def enrich : Doc → List (MKey × Value × Value)
  | [] => []
  | (k, v) :: r => (k, v, fix_keys v) :: enrich r

end

/-- The sanitization applied by the source before every store write:
`replace_none` followed by `fix_keys` (reactor.py lines 569-575). -/
def sanitize (v : Value) : Value := fix_keys (replace_none v)

/-- Sanitization of a dict document, as applied to `log_data`,
`user_data` and the per-event partial documents. -/
def sanitizeDoc (d : Doc) : Doc :=
  match fix_keys (replace_none (.vdict d)) with
  | .vdict kvs => kvs
  | _ => []

/-! ## Generic structural predicates over documents -/

mutual

/-- Generic recursive check: `kp` must hold of every dict key, `vnull`
is allowed iff `nullOk`, and dicts must have pairwise distinct keys when
`nd` is set. -/
def vOk (kp : MKey → Bool) (nullOk : Bool) (nd : Bool) : Value → Bool
  | .vnull => nullOk
  | .vlist xs => vOkList kp nullOk nd xs
  | .vdict kvs => (!nd || keysNodupB kvs) && vOkKVs kp nullOk nd kvs
  | _ => true

def vOkList (kp : MKey → Bool) (nullOk : Bool) (nd : Bool) : List Value → Bool
  | [] => true
  | v :: vs => vOk kp nullOk nd v && vOkList kp nullOk nd vs

def vOkKVs (kp : MKey → Bool) (nullOk : Bool) (nd : Bool) : Doc → Bool
  | [] => true
  | (k, v) :: r => kp k && vOk kp nullOk nd v && vOkKVs kp nullOk nd r

end

/-- Well-formed value: every dict (at any depth) has pairwise distinct
keys.  Every value representable as a Python object satisfies this;
association lists with duplicate keys do not correspond to Python
dicts. -/
def wfV : Value → Bool := vOk (fun _ => true) true true

/-- Fully sanitized (with respect to keys): distinct keys everywhere and
every key clean. -/
def sanitizedKeys : Value → Bool := vOk cleanMKey true true

/-- Every textual dict key at every depth is clean. -/
def keysCleanAll : Value → Bool := vOk cleanMKey true false

/-- Every textual dict key at every depth avoids `$`, `.` and `-`
(the property asserted by the original claim). -/
def keysNoBadAll : Value → Bool := vOk noBadMKey true false

/-- No `vnull` anywhere in the value (including the value itself). -/
def nullFreeB : Value → Bool := vOk (fun _ => true) false false

def isContainer : Value → Bool
  | .vlist _ => true
  | .vdict _ => true
  | _ => false

mutual

/-- Specification-side restatement of null normalization (§4.4 pass 1):
every `null` scalar value, at any depth, becomes the literal string
`"None"`; everything else, and the map/sequence structure, is kept. -/
def nullNormSpec : Value → Value
  | .vnull => .vstr ("None".data)
  | .vlist xs => .vlist (nullNormSpecList xs)
  | .vdict kvs => .vdict (nullNormSpecKVs kvs)
  | v => v

def nullNormSpecList : List Value → List Value
  | [] => []
  | v :: vs => nullNormSpec v :: nullNormSpecList vs

def nullNormSpecKVs : Doc → Doc
  | [] => []
  | (k, v) :: r => (k, nullNormSpec v) :: nullNormSpecKVs r

end

/-! ## Fragment reassembly (reactor.py lines 365-421)

A pdu chain is the first fragment's parameters plus the bodies of the
fragments reachable through `nextPdu`.  The loop only reads
`short_message` from the follow-up fragments. -/

inductive SplitMethod where
  | sar : SplitMethod
  | udh : SplitMethod
deriving DecidableEq

structure PduChain where
  destination_addr : Chars
  source_addr : Chars
  schedule_delivery_time : Value
  validity_period : Value
  data_coding : Option Int
  esmHasGsmFeatures : Bool
  esmUdhi : Bool
  sarPresent : Bool
  status : Chars
  firstBody : Bytes
  restBodies : List Bytes
deriving DecidableEq

/-- `UDHI_INDICATOR_SET` (lines 381-386): true when `esm_class` has a
`gsmFeatures` attribute containing the UDHI flag. -/
def UDHI_INDICATOR_SET (p : PduChain) : Bool := p.esmHasGsmFeatures && p.esmUdhi

/-- `splitMethod` detection (lines 388-396); `none` is Python's `None`. -/
def splitMethodOf (p : PduChain) : Option SplitMethod :=
  if p.sarPresent then some .sar
  else if UDHI_INDICATOR_SET p = true ∧ p.firstBody.take 3 = [0x05, 0x00, 0x03]
  then some .udh
  else none

/-- The concatenation loop (lines 408-416): `sar` appends each next
fragment's full body, `udh` strips the first 6 bytes of each body;
`sms_pages` is incremented per followed link. -/
def concatLoop (m : SplitMethod) (acc : Bytes) (pages : Nat) :
    List Bytes → Bytes × Nat
  | [] => (acc, pages)
  | b :: rest =>
    concatLoop m (acc ++ (match m with | .sar => b | .udh => b.drop 6)) (pages + 1) rest

/-- Reassembled `short_message` bytes and final `sms_pages`
(lines 378-418): the accumulator starts from the first fragment's body,
stripped of its 6-byte user-data header in the `udh` case. -/
def reassemble (p : PduChain) : Bytes × Nat :=
  match splitMethodOf p with
  | none => (p.firstBody, 1)
  | some .sar => concatLoop .sar p.firstBody 1 p.restBodies
  | some .udh => concatLoop .udh (p.firstBody.drop 6) 1 p.restBodies

/-! ## Character decoding (reactor.py lines 424-452)

The decode branches compare `data_coding` against the SMPP numeric
data-coding values (`smpp.pdu.constants`): SMSC default alphabet `0x00`,
IA5/ASCII `0x01`, Latin-1 `0x03`, UCS2 `0x08`.  The byte-level decoders
model the Python codecs (external collaborators) with
"replace on invalid input" semantics; they are total and never fail. -/

def replacementChar : Char := Char.ofNat 0xFFFD

def asciiDecodeReplace (b : Bytes) : Chars :=
  b.map (fun n => if n < 0x80 then Char.ofNat n else replacementChar)

def latin1Decode (b : Bytes) : Chars := b.map (fun n => Char.ofNat (n % 256))

def utf16beDecodeReplace : Bytes → Chars
  | [] => []
  | [_] => [replacementChar]
  | a :: b :: rest =>
    let u := (a % 256) * 256 + b % 256
    if 0xD800 ≤ u ∧ u ≤ 0xDBFF then
      match rest with
      | c :: d :: rest2 =>
        let u2 := (c % 256) * 256 + d % 256
        if 0xDC00 ≤ u2 ∧ u2 ≤ 0xDFFF then
          Char.ofNat (0x10000 + (u - 0xD800) * 1024 + (u2 - 0xDC00)) ::
            utf16beDecodeReplace rest2
        else replacementChar :: utf16beDecodeReplace (c :: d :: rest2)
      | _ => [replacementChar]
    else if 0xDC00 ≤ u ∧ u ≤ 0xDFFF then replacementChar :: utf16beDecodeReplace rest
    else Char.ofNat u :: utf16beDecodeReplace rest
termination_by l => l.length
decreasing_by all_goals (simp [List.length_cons]; try omega)

def utf8DecodeReplace : Bytes → Chars
  | [] => []
  | b :: rest =>
    if b < 0x80 then Char.ofNat b :: utf8DecodeReplace rest
    else if 0xC2 ≤ b ∧ b ≤ 0xDF then
      match rest with
      | c :: rest2 =>
        if 0x80 ≤ c ∧ c ≤ 0xBF then
          Char.ofNat ((b - 0xC0) * 64 + (c - 0x80)) :: utf8DecodeReplace rest2
        else replacementChar :: utf8DecodeReplace (c :: rest2)
      | [] => [replacementChar]
    else if 0xE0 ≤ b ∧ b ≤ 0xEF then
      match rest with
      | c :: d :: rest2 =>
        if (0x80 ≤ c ∧ c ≤ 0xBF) ∧ (0x80 ≤ d ∧ d ≤ 0xBF) then
          let u := (b - 0xE0) * 4096 + (c - 0x80) * 64 + (d - 0x80)
          if u < 0x800 ∨ (0xD800 ≤ u ∧ u ≤ 0xDFFF) then
            replacementChar :: utf8DecodeReplace (c :: d :: rest2)
          else Char.ofNat u :: utf8DecodeReplace rest2
        else replacementChar :: utf8DecodeReplace (c :: d :: rest2)
      | _ => [replacementChar]
    else if 0xF0 ≤ b ∧ b ≤ 0xF4 then
      match rest with
      | c :: d :: e :: rest2 =>
        if (0x80 ≤ c ∧ c ≤ 0xBF) ∧ (0x80 ≤ d ∧ d ≤ 0xBF) ∧ (0x80 ≤ e ∧ e ≤ 0xBF) then
          let u := (b - 0xF0) * 262144 + (c - 0x80) * 4096 + (d - 0x80) * 64 + (e - 0x80)
          if u < 0x10000 ∨ 0x10FFFF < u then
            replacementChar :: utf8DecodeReplace (c :: d :: e :: rest2)
          else Char.ofNat u :: utf8DecodeReplace rest2
        else replacementChar :: utf8DecodeReplace (c :: d :: e :: rest2)
      | _ => [replacementChar]
    else replacementChar :: utf8DecodeReplace rest
termination_by l => l.length
decreasing_by all_goals (simp [List.length_cons]; try omega)

/-- `short_message_decoded` (lines 424-452): when `data_coding` is
`None`, no decoding happens at all and the value stays the raw bytes;
otherwise the decode strategy is selected by the numeric value, with
UTF-8 as the fallback. -/
def decodeShortMessage (dc : Option Int) (sm : Bytes) : Value :=
  match dc with
  | none => .vbytes sm
  | some d =>
    if d = 0 ∨ d = 1 then .vstr (asciiDecodeReplace sm)
    else if d = 3 then .vstr (latin1Decode sm)
    else if d = 8 then .vstr (utf16beDecodeReplace sm)
    else .vstr (utf8DecodeReplace sm)

/-- `binascii.hexlify`: two lowercase hex digits per byte, as bytes. -/
def hexDigit (n : Nat) : Nat := if n < 10 then 48 + n else 87 + n

def hexlify (b : Bytes) : Bytes :=
  b.foldr (fun x acc => hexDigit (x % 256 / 16) :: hexDigit (x % 16) :: acc) []

/-- `"** %s byte content **" % n` (privacy placeholder). -/
def byteContentPh (n : Nat) : Chars :=
  ("** ".data) ++ (Nat.repr n).data ++ (" byte content **".data)

/-- `"** %s char content **" % n` (privacy placeholder). -/
def charContentPh (n : Nat) : Chars :=
  ("** ".data) ++ (Nat.repr n).data ++ (" char content **".data)

/-- `len(short_message_decoded)` (it is either `bytes` or `str`). -/
def lenOfDecoded : Value → Nat
  | .vbytes b => b.length
  | .vstr s => s.length
  | _ => 0

/-! ## Billing (reactor.py lines 485-524)

The billing object arrives pickled in the headers; deserialization can
fail, which aborts processing of the single event.  Amount quantities
(Python floats) are modelled as rationals. -/

structure Billing where
  bid : Chars
  uid : Chars
  gid : Chars
  username : Chars
  quotaBalance : Value
  quotaSubmitSmCount : Value
  totalAmounts : Rat
  decrementSubmitSmCount : Rat
deriving DecidableEq

/-- One inbound broker event, with its pre-parsed payload: `body` is
`none` when `pickle.loads(msg.content.body)` would raise, and each
`…BillPickle` is `none` when the header is absent/falsy and
`some none` when present but undeserializable. -/
structure Event where
  routing_key : Chars
  message_id : Chars
  created_at : Value
  priority : Value
  source_connector : Value
  expiration : Option Value
  dlrHeaders : Doc
  now : Chars
  body : Option PduChain
  respBillPickle : Option (Option Billing)
  subBillPickle : Option (Option Billing)
deriving DecidableEq

/-- Lines 485-489: `headers.get("submit_sm_resp_bill")` with fallback to
`headers.get("submit_sm_bill")`, then `pickle.loads`; the result is
`none` exactly when that raises (missing header or bad payload). -/
def billingLoads (e : Event) : Option Billing :=
  match e.respBillPickle with
  | some p => p
  | none =>
    match e.subBillPickle with
    | some p => p
    | none => none

/-- The `bill` dict literal (lines 491-524). -/
def buildBill (b : Billing) (e : Event) (p : PduChain) (sms_pages : Nat) : Doc :=
  [ (kOf ("_id"), .vstr b.bid),
    (kOf ("user"), .vdict [
      (kOf ("_id"), .vstr b.uid),
      (kOf ("group"), .vstr b.gid),
      (kOf ("username"), .vstr b.username),
      (kOf ("quota"), .vdict [
        (kOf ("balance"), b.quotaBalance),
        (kOf ("submit_sm_count"), b.quotaSubmitSmCount) ]) ]),
    (kOf ("source_connector"), e.source_connector),
    (kOf ("routed_cid"), .vstr (e.routing_key.drop 10)),
    (kOf ("created_at"), e.created_at),
    (kOf ("priority"), e.priority),
    (kOf ("destination_addr"), .vstr p.destination_addr),
    (kOf ("source_addr"), .vstr p.source_addr),
    (kOf ("schedule_delivery_time"), p.schedule_delivery_time),
    (kOf ("validity_period"), p.validity_period),
    (kOf ("page_count"), .vint sms_pages),
    (kOf ("amount_rate"), .vrat b.totalAmounts),
    (kOf ("amount_charge"), .vrat (b.totalAmounts * (sms_pages : Rat))),
    (kOf ("sms_count_rate"), .vrat b.decrementSubmitSmCount),
    (kOf ("sms_count_charge"), .vrat (b.decrementSubmitSmCount * (sms_pages : Rat))) ]

/-- The `log_data` dict literal (lines 533-556). -/
def logDataOf (privacy : Bool) (e : Event) (p : PduChain) (b : Billing) : Doc :=
  [ (kOf ("created_at"), e.created_at),
    (kOf ("priority"), e.priority),
    (kOf ("source"), e.source_connector),
    (kOf ("route"), .vstr (e.routing_key.drop 10)),
    (kOf ("destination_addr"), .vstr p.destination_addr),
    (kOf ("source_addr"), .vstr p.source_addr),
    (kOf ("schedule_delivery_time"), p.schedule_delivery_time),
    (kOf ("validity_period"), p.validity_period),
    (kOf ("data_coding"),
      match p.data_coding with | none => .vnull | some n => .vint n),
    (kOf ("validity"),
      match e.expiration with | none => .vnull | some v => v),
    (kOf ("status"), .vstr p.status),
    (kOf ("page_count"), .vint (reassemble p).2),
    (kOf ("short_message"),
      if privacy then .vstr (byteContentPh (reassemble p).1.length)
      else .vbytes (reassemble p).1),
    (kOf ("binary_message"),
      if privacy then .vstr (byteContentPh (hexlify (reassemble p).1).length)
      else .vbytes (hexlify (reassemble p).1)),
    (kOf ("short_message_decoded"),
      if privacy
      then .vstr (charContentPh (lenOfDecoded (decodeShortMessage p.data_coding (reassemble p).1)))
      else decodeShortMessage p.data_coding (reassemble p).1),
    (kOf ("bill"), .vdict (buildBill b e p (reassemble p).2)) ]

/-- The `user_data` dict literal (lines 560-567). -/
def userDataOf (b : Billing) : Doc :=
  [ (kOf ("mt_messaging_cred quota balance"), b.quotaBalance),
    (kOf ("mt_messaging_cred quota sms_count"), b.quotaSubmitSmCount) ]

/-! ## The store (the `.mongodb` module is not part of `src/`) -/

/-- One collection: documents keyed by a string id. -/
abbrev Store := List (Chars × Doc)

/-- Modelled from the spec: `fetchOne(collection, key) -> Document?` of
§6, the `MongoDB.get_one_submodule` used at reactor.py line 652 (the
`.mongodb` module is not under `src/`). -/
def get_one_submodule (sid : Chars) : Store → Option Doc
  | [] => none
  | (sid₁, doc) :: r => if sid₁ = sid then some doc else get_one_submodule sid r

/-- Merge the top-level fields of `data` into `doc`. -/
def mergeDoc (doc : Doc) (data : Doc) : Doc :=
  data.foldl (fun d kv => dSet kv.1 kv.2 d) doc

/-- Modelled from the spec: `upsertMerge(collection, key,
partialDocument)` of §6, the `MongoDB.update_one` used by the reactor
(the `.mongodb` module is not under `src/`): merges the top-level fields
of `data` into the document keyed `sid`, creating it if absent. -/
def update_one (sid : Chars) (data : Doc) : Store → Store
  | [] => [(sid, mergeDoc [] data)]
  | (sid₁, doc) :: r =>
    if sid₁ = sid then (sid₁, mergeDoc doc data) :: r
    else (sid₁, doc) :: update_one sid data r

/-! ## Delivery receipts (reactor.py lines 630-681) -/

/-- `dlr = deepcopy(headers)`, `dlr["created_at"] = now`, and the
privacy redaction of a non-empty `text` field (lines 640-648). -/
def prepDlr (privacy : Bool) (headers : Doc) (now : Chars) : Doc :=
  let d := dSet (kOf ("created_at")) (.vstr now) headers
  if privacy then
    match dGet (kOf ("text")) d with
    | some (.vstr t) =>
      if t ≠ [] then dSet (kOf ("text")) (.vstr (charContentPh t.length)) d else d
    | _ => d
  else d

/-- `qmsg.pop("dlr", [])` followed by `.append`: fails (`none`) when the
stored `dlr` field is not a list (Python would raise there). -/
def popDlrList (qmsg : Doc) : Option (List Value)  :=
  match dGet (kOf ("dlr")) qmsg with
  | none => some []
  | some (.vlist xs) => some xs
  | some _ => none

/-- The full DeliveryReceipt path (lines 630-681) against the log
collection: fetch (an absent document becomes the empty shell `{}`),
append the receipt to the `dlr` list, sanitize, upsert. -/
def processDlr (privacy : Bool) (mid : Chars) (headers : Doc) (now : Chars)
    (S : Store) : Option Store :=
  let dlr := prepDlr privacy headers now
  let qmsg := (get_one_submodule mid S).getD []
  match popDlrList qmsg with
  | none => none
  | some xs =>
    some (update_one mid (sanitizeDoc [(kOf ("dlr"), .vlist (xs ++ [.vdict dlr]))]) S)

/-- The sanitized form in which one receipt is stored inside the `dlr`
list. -/
def dlrEntry (privacy : Bool) (headers : Doc) (now : Chars) : Value :=
  fix_keys (replaceNoneElem (.vdict (prepDlr privacy headers now)))

/-! ## Event routing (reactor.py lines 344-688) -/

structure DB where
  logs : Store
  users : Store
deriving DecidableEq

/-- The Submission path (lines 344-591) up to the two store writes:
`none`-returning deserialization aborts the event with an exception. -/
def processSubmission (privacy : Bool) (e : Event) :
    Except Unit (Doc × Doc × Chars) :=
  match e.body with
  | none => .error ()
  | some p =>
    match billingLoads e with
    | none => .error ()
    | some b =>
      .ok (sanitizeDoc (logDataOf privacy e p b), sanitizeDoc (userDataOf b), b.uid)

/-- One iteration of the consumer loop body: classification by
routing-key prefix (longest first, exactly as the source's string
slices), processing and store writes.  `.error` means an exception
escaped the event's processing. -/
def processEvent (privacy : Bool) (e : Event) (db : DB) : Except Unit DB :=
  if e.routing_key.take 10 = ("submit.sm.".data) ∧
     ¬(e.routing_key.take 15 = ("submit.sm.resp.".data)) then
    match processSubmission privacy e with
    | .error u => .error u
    | .ok (ld, ud, uid) =>
      .ok ⟨update_one e.message_id ld db.logs, update_one uid ud db.users⟩
  else if e.routing_key.take 15 = ("submit.sm.resp.".data) then
    match e.body with
    | none => .error ()
    | some p =>
      .ok ⟨update_one e.message_id
            (sanitizeDoc [(kOf ("ack"), .vdict
              [(kOf ("created_at"), e.created_at), (kOf ("status"), .vstr p.status)])])
            db.logs,
          db.users⟩
  else if e.routing_key.take 12 = ("dlr_thrower.".data) then
    match processDlr privacy e.message_id e.dlrHeaders e.now db.logs with
    | none => .error ()
    | some logsNew => .ok ⟨logsNew, db.users⟩
  else .ok db

/-! ## The consumer loop and the broker supervisor
(reactor.py lines 317-722 and 777-800) -/

structure LoopOut where
  acked : List Chars
  db : DB
  aborted : Bool
deriving DecidableEq

/-- The `while True` consumer loop over the events the broker delivers:
each successfully processed event is acknowledged (line 686, after the
storage writes); the first exception escapes the loop — the `try` of
line 317 wraps the whole loop — so the failing event is not
acknowledged and no later event is processed. -/
def consumeLoop (privacy : Bool) : List Event → DB → LoopOut
  | [], db => ⟨[], db, false⟩
  | e :: rest, db =>
    match processEvent privacy e db with
    | .ok db₁ =>
      let r := consumeLoop privacy rest db₁
      ⟨e.message_id :: r.acked, r.db, r.aborted⟩
    | .error _ => ⟨[], db, true⟩

structure RetryState where
  retry_on_connection_error : Bool
  amqp_broker_max_retries : Int
  retry_forever : Bool
deriving DecidableEq

/-- `__init__` (lines 103-106): `RETRY_FOREVER = max_retries <= 0`. -/
def initRetryState (retry_on : Bool) (max_retries : Int) : RetryState :=
  ⟨retry_on, max_retries, decide (max_retries ≤ 0)⟩

inductive ConDecision where
  | stop : ConDecision
  | reconnect : ConDecision
deriving DecidableEq

/-- The shared stop-or-reconnect block (lines 702-709 in `gotConnection`
and 785-792 in `ConError`): terminal stop when retries are disabled or a
bounded budget is exhausted, otherwise decrement and schedule a
reconnect. -/
def reconnectOrStop (s : RetryState) : ConDecision × RetryState :=
  if ¬s.retry_on_connection_error ∨
     (s.amqp_broker_max_retries ≤ 0 ∧ ¬s.retry_forever) then (.stop, s)
  else (.reconnect,
    { s with amqp_broker_max_retries := s.amqp_broker_max_retries - 1 })

/-- The `ConError` errback (lines 777-800), reduced to its decision. -/
def ConError (s : RetryState) : ConDecision × RetryState := reconnectOrStop s

/-- Observable history of the broker supervisor across connect
failures: once `StopReactor` ran the reactor is stopped, so no further
failure callback ever fires. -/
structure SupervisorRun where
  rs : RetryState
  stopped : Bool
  reconnects : Nat
  stops : Nat
deriving DecidableEq

def failStep (s : SupervisorRun) : SupervisorRun :=
  if s.stopped then s
  else
    match ConError s.rs with
    | (.stop, rs₁) => ⟨rs₁, true, s.reconnects, s.stops + 1⟩
    | (.reconnect, rs₁) => ⟨rs₁, false, s.reconnects + 1, s.stops⟩

def runFails : Nat → SupervisorRun → SupervisorRun
  | 0, s => s
  | n + 1, s => runFails n (failStep s)

/-- `gotConnection` after MongoDB is up: run the consumer loop; if (and
only if) an exception escaped it, fall through to the stop-or-reconnect
block of lines 702-709. -/
def gotConnectionRun (privacy : Bool) (rs : RetryState) (events : List Event)
    (db : DB) : LoopOut × Option (ConDecision × RetryState) :=
  let r := consumeLoop privacy events db
  (r, if r.aborted then some (reconnectOrStop rs) else none)

/-- The sanitized `log_data` a submission event stores (for concrete
evaluation in scenarios). -/
def ldOf (e : Event) : Doc :=
  match processSubmission false e with
  | .ok x => x.1
  | .error _ => []

/-! ## Concrete sample data for scenario evaluation -/

/-- A two-fragment UDH-concatenated submission pdu chain. -/
def samplePdu : PduChain :=
  { destination_addr := ("15551234".data), source_addr := ("100".data),
    schedule_delivery_time := .vnull, validity_period := .vnull,
    data_coding := none, esmHasGsmFeatures := true, esmUdhi := true,
    sarPresent := false, status := ("ESME_ROK".data),
    firstBody := [0x05, 0x00, 0x03, 0x01, 0x02, 0x01] ++ [65, 66],
    restBodies := [[0x05, 0x00, 0x03, 0x01, 0x02, 0x02] ++ [67, 68]] }

def sampleBilling : Billing :=
  { bid := ("b1".data), uid := ("u1".data), gid := ("g1".data),
    username := ("alice".data), quotaBalance := .vrat 10,
    quotaSubmitSmCount := .vnull, totalAmounts := 2,
    decrementSubmitSmCount := 1 }

def sampleSubmitEvent : Event :=
  { routing_key := ("submit.sm.conn1".data), message_id := ("m1".data),
    created_at := .vstr ("2024-01-01 00:00:00".data), priority := .vint 1,
    source_connector := .vstr ("smppsapi".data), expiration := none,
    dlrHeaders := [], now := [], body := some samplePdu,
    respBillPickle := none, subBillPickle := some (some sampleBilling) }

/-- A submission event whose pickled body cannot be deserialized. -/
def badSubmitEvent : Event :=
  { routing_key := ("submit.sm.conn1".data), message_id := ("m2".data),
    created_at := .vstr ("2024-01-01 00:00:00".data), priority := .vint 1,
    source_connector := .vstr ("smppsapi".data), expiration := none,
    dlrHeaders := [], now := [], body := none,
    respBillPickle := none, subBillPickle := some (some sampleBilling) }

/-- An event with a routing key matching none of the three patterns:
logged, acknowledged, no storage write. -/
def unknownEvent : Event :=
  { routing_key := ("other.route".data), message_id := ("m3".data),
    created_at := .vnull, priority := .vnull, source_connector := .vnull,
    expiration := none, dlrHeaders := [], now := [], body := none,
    respBillPickle := none, subBillPickle := none }

def sampleDlrHeaders : Doc :=
  [ (kOf ("message_id"), .vstr ("m1".data)),
    (kOf ("level"), .vint 1),
    (kOf ("message_status"), .vstr ("DELIVRD".data)),
    (kOf ("subdate"), .vnull) ]

def dbEmpty : DB := ⟨[], []⟩

/-- The sanitized `user_data` of a submission (for concrete scenarios). -/
def udOf (e : Event) : Doc :=
  match processSubmission false e with
  | .ok x => x.2.1
  | .error _ => []

def uidOf (e : Event) : Chars :=
  match processSubmission false e with
  | .ok x => x.2.2
  | .error _ => []

/-! ## Bridge lemmas for the mutual helper functions -/

@[simp] theorem replaceNoneList_eq_map (xs : List Value) :
    replaceNoneList xs = xs.map replaceNoneElem := by
  induction xs with
  | nil => rfl
  | cons v vs ih => simp [replaceNoneList, ih]

@[simp] theorem replaceNoneKVs_eq_map (d : Doc) :
    replaceNoneKVs d = d.map (fun kv => (kv.1, replaceNoneElem kv.2)) := by
  induction d with
  | nil => rfl
  | cons kv r ih => obtain ⟨k, v⟩ := kv; simp [replaceNoneKVs, ih]

@[simp] theorem fixKeysList_eq_map (xs : List Value) :
    fixKeysList xs = xs.map fix_keys := by
  induction xs with
  | nil => rfl
  | cons v vs ih => simp [fixKeysList, ih]

@[simp] theorem enrich_eq_map (d : Doc) :
    enrich d = d.map (fun kv => (kv.1, kv.2, fix_keys kv.2)) := by
  induction d with
  | nil => rfl
  | cons kv r ih => obtain ⟨k, v⟩ := kv; simp [enrich, ih]

theorem mem_enrich {k : MKey} {v w : Value} {d : Doc} :
    (k, v, w) ∈ enrich d ↔ (k, v) ∈ d ∧ w = fix_keys v := by
  simp only [enrich_eq_map, List.mem_map]
  constructor
  · rintro ⟨⟨k₁, v₁⟩, hm, he⟩
    simp only [Prod.mk.injEq] at he
    obtain ⟨rfl, rfl, rfl⟩ := he
    exact ⟨hm, rfl⟩
  · rintro ⟨hm, rfl⟩
    exact ⟨(k, v), hm, rfl⟩

/-! ## Lemmas about the dict primitives -/

theorem kMemL_iff {k : MKey} {l : List MKey} : kMemL k l = true ↔ k ∈ l := by
  induction l with
  | nil => simp [kMemL]
  | cons k₁ r ih =>
    simp only [kMemL, Bool.or_eq_true, decide_eq_true_eq, ih, List.mem_cons]
    constructor
    · rintro (rfl | h) <;> tauto
    · rintro (rfl | h) <;> tauto

theorem keyMem_iff {k : MKey} {d : Doc} :
    keyMem k d = true ↔ ∃ v, (k, v) ∈ d := by
  simp only [keyMem, kMemL_iff, List.mem_map]
  constructor
  · rintro ⟨⟨k₁, v₁⟩, hm, rfl⟩; exact ⟨v₁, hm⟩
  · rintro ⟨v, hm⟩; exact ⟨(k, v), hm, rfl⟩

theorem keysNodupB_cons {k : MKey} {v : Value} {d : Doc} :
    keysNodupB ((k, v) :: d) = (!(keyMem k d) && keysNodupB d) := rfl

theorem mem_of_dGet {k : MKey} {v : Value} {d : Doc} (h : dGet k d = some v) :
    (k, v) ∈ d := by
  induction d with
  | nil => simp [dGet] at h
  | cons kv r ih =>
    obtain ⟨k₁, v₁⟩ := kv
    by_cases hk : k₁ = k
    · subst hk
      rw [dGet, if_pos rfl, Option.some.injEq] at h
      subst h
      exact List.mem_cons_self _ _
    · rw [dGet, if_neg hk] at h
      exact List.mem_cons_of_mem _ (ih h)

theorem keyMem_of_dGet {k : MKey} {v : Value} {d : Doc} (h : dGet k d = some v) :
    keyMem k d = true :=
  keyMem_iff.mpr ⟨v, mem_of_dGet h⟩

theorem dGet_eq_none {k : MKey} {d : Doc} (h : keyMem k d = false) :
    dGet k d = none := by
  induction d with
  | nil => rfl
  | cons kv r ih =>
    obtain ⟨k₁, v₁⟩ := kv
    simp only [keyMem, List.map_cons, kMemL, Bool.or_eq_false_iff,
      decide_eq_false_iff_not] at h
    simp only [dGet, if_neg h.1]
    exact ih h.2

theorem dGet_of_mem {k : MKey} {v : Value} {d : Doc}
    (hnd : keysNodupB d = true) (hm : (k, v) ∈ d) : dGet k d = some v := by
  induction d with
  | nil => simp at hm
  | cons kv r ih =>
    obtain ⟨k₁, v₁⟩ := kv
    rw [keysNodupB_cons, Bool.and_eq_true, Bool.not_eq_true'] at hnd
    rcases List.mem_cons.mp hm with heq | hmem
    · simp only [Prod.mk.injEq] at heq
      obtain ⟨rfl, rfl⟩ := heq
      simp [dGet]
    · have hne : k₁ ≠ k := by
        rintro rfl
        exact absurd (keyMem_iff.mpr ⟨v, hmem⟩) (by simp [hnd.1])
      simp only [dGet, if_neg hne]
      exact ih hnd.2 hmem

theorem keyMem_dSet {a k : MKey} {v : Value} {d : Doc} :
    (keyMem a (dSet k v d) = true) ↔ (a = k ∨ keyMem a d = true) := by
  induction d with
  | nil => simp [dSet, keyMem, kMemL, eq_comm]
  | cons kv r ih =>
    obtain ⟨k₁, v₁⟩ := kv
    by_cases hk : k₁ = k
    · subst hk
      simp only [dSet, if_pos rfl]
      simp only [keyMem, List.map_cons, kMemL, Bool.or_eq_true, decide_eq_true_eq]
      constructor
      · rintro (rfl | h) <;> tauto
      · rintro (rfl | (rfl | h)) <;> tauto
    · simp only [dSet, if_neg hk]
      simp only [keyMem, List.map_cons, kMemL, Bool.or_eq_true,
        decide_eq_true_eq] at ih ⊢
      constructor
      · rintro (rfl | h)
        · tauto
        · rcases ih.mp h with h₁ | h₁ <;> tauto
      · rintro (rfl | (rfl | h))
        · exact Or.inr (ih.mpr (Or.inl rfl))
        · tauto
        · exact Or.inr (ih.mpr (Or.inr h))


theorem dGet_dSet_self {k : MKey} {v : Value} {d : Doc} :
    dGet k (dSet k v d) = some v := by
  induction d with
  | nil => simp [dSet, dGet]
  | cons kv r ih =>
    obtain ⟨k₁, v₁⟩ := kv
    by_cases hk : k₁ = k
    · subst hk; simp [dSet, dGet]
    · simp only [dSet, if_neg hk, dGet, ih]

theorem dGet_dSet_ne {a k : MKey} {v : Value} {d : Doc} (hne : a ≠ k) :
    dGet a (dSet k v d) = dGet a d := by
  have hka : ¬(k = a) := fun h => hne (Eq.symm h)
  induction d with
  | nil => simp [dSet, dGet, hka]
  | cons kv r ih =>
    obtain ⟨k₁, v₁⟩ := kv
    by_cases hk : k₁ = k
    · subst hk
      have hd : dSet k₁ v ((k₁, v₁) :: r) = (k₁, v) :: r := by simp [dSet]
      rw [hd]
      simp [dGet, hka]
    · simp only [dSet, if_neg hk, dGet]
      by_cases ha : k₁ = a
      · simp [ha]
      · simp [ha, ih]

theorem dSet_of_dGet {k : MKey} {v : Value} {d : Doc} (h : dGet k d = some v) :
    dSet k v d = d := by
  induction d with
  | nil => simp [dGet] at h
  | cons kv r ih =>
    obtain ⟨k₁, v₁⟩ := kv
    by_cases hk : k₁ = k
    · subst hk
      rw [dGet, if_pos rfl, Option.some.injEq] at h
      subst h
      simp [dSet]
    · rw [dGet, if_neg hk] at h
      simp [dSet, if_neg hk, ih h]

theorem keysNodupB_dSet {k : MKey} {v : Value} {d : Doc}
    (hnd : keysNodupB d = true) : keysNodupB (dSet k v d) = true := by
  induction d with
  | nil => simp [dSet, keysNodupB, kndL, keyMem, kMemL]
  | cons kv r ih =>
    obtain ⟨k₁, v₁⟩ := kv
    rw [keysNodupB_cons, Bool.and_eq_true, Bool.not_eq_true'] at hnd
    by_cases hk : k₁ = k
    · subst hk
      have hd : dSet k₁ v ((k₁, v₁) :: r) = (k₁, v) :: r := by simp [dSet]
      rw [hd, keysNodupB_cons, Bool.and_eq_true, Bool.not_eq_true']
      exact hnd
    · simp only [dSet, if_neg hk]
      rw [keysNodupB_cons, Bool.and_eq_true, Bool.not_eq_true']
      refine ⟨?_, ih hnd.2⟩
      rw [Bool.eq_false_iff]
      intro hmem
      rcases keyMem_dSet.mp hmem with rfl | h
      · exact hk rfl
      · rw [hnd.1] at h; exact Bool.false_ne_true h

theorem mem_dSet {a k : MKey} {u v : Value} {d : Doc}
    (hnd : keysNodupB d = true) :
    (a, u) ∈ dSet k v d ↔ (a = k ∧ u = v) ∨ (a ≠ k ∧ (a, u) ∈ d) := by
  constructor
  · intro h
    by_cases hak : a = k
    · subst hak
      have h1 : dGet a (dSet a v d) = some u := dGet_of_mem (keysNodupB_dSet hnd) h
      rw [dGet_dSet_self, Option.some.injEq] at h1
      exact Or.inl ⟨rfl, h1.symm⟩
    · have h1 : dGet a (dSet k v d) = some u := dGet_of_mem (keysNodupB_dSet hnd) h
      rw [dGet_dSet_ne hak] at h1
      exact Or.inr ⟨hak, mem_of_dGet h1⟩
  · rintro (⟨rfl, rfl⟩ | ⟨hne, hm⟩)
    · exact mem_of_dGet dGet_dSet_self
    · have h1 : dGet a d = some u := dGet_of_mem hnd hm
      exact mem_of_dGet (by rw [dGet_dSet_ne hne]; exact h1)

theorem mem_dPop {a : MKey} {u : Value} {k : MKey} {d : Doc}
    (h : (a, u) ∈ dPop k d) : (a, u) ∈ d := by
  induction d with
  | nil => simp [dPop] at h
  | cons kv r ih =>
    obtain ⟨k₁, v₁⟩ := kv
    by_cases hk : k₁ = k
    · subst hk
      rw [dPop, if_pos rfl] at h
      exact List.mem_cons_of_mem _ h
    · rw [dPop, if_neg hk] at h
      rcases List.mem_cons.mp h with heq | hmem
      · exact heq ▸ List.mem_cons_self _ _
      · exact List.mem_cons_of_mem _ (ih hmem)

theorem keyMem_dPop {a k : MKey} {d : Doc}
    (h : keyMem a (dPop k d) = true) : keyMem a d = true := by
  rcases keyMem_iff.mp h with ⟨v, hv⟩
  exact keyMem_iff.mpr ⟨v, mem_dPop hv⟩

theorem keysNodupB_dPop {k : MKey} {d : Doc}
    (hnd : keysNodupB d = true) : keysNodupB (dPop k d) = true := by
  induction d with
  | nil => simp [dPop, keysNodupB, kndL]
  | cons kv r ih =>
    obtain ⟨k₁, v₁⟩ := kv
    rw [keysNodupB_cons, Bool.and_eq_true, Bool.not_eq_true'] at hnd
    by_cases hk : k₁ = k
    · subst hk
      rw [dPop, if_pos rfl]
      exact hnd.2
    · rw [dPop, if_neg hk, keysNodupB_cons, Bool.and_eq_true, Bool.not_eq_true']
      refine ⟨?_, ih hnd.2⟩
      rw [Bool.eq_false_iff]
      intro hmem
      have hx := keyMem_dPop hmem
      rw [hnd.1] at hx
      exact Bool.false_ne_true hx

theorem not_mem_dPop_self {k : MKey} {u : Value} {d : Doc}
    (hnd : keysNodupB d = true) : (k, u) ∉ dPop k d := by
  induction d with
  | nil => simp [dPop]
  | cons kv r ih =>
    obtain ⟨k₁, v₁⟩ := kv
    rw [keysNodupB_cons, Bool.and_eq_true, Bool.not_eq_true'] at hnd
    by_cases hk : k₁ = k
    · subst hk
      rw [dPop, if_pos rfl]
      intro hmem
      exact absurd (keyMem_iff.mpr ⟨u, hmem⟩) (by simp [hnd.1])
    · rw [dPop, if_neg hk]
      intro hmem
      rcases List.mem_cons.mp hmem with heq | hm
      · exact hk (congrArg Prod.fst heq).symm
      · exact ih hnd.2 hm

theorem dGet_append_not_mem {k : MKey} {A B : Doc} (h : keyMem k A = false) :
    dGet k (A ++ B) = dGet k B := by
  induction A with
  | nil => rfl
  | cons kv r ih =>
    obtain ⟨k₁, v₁⟩ := kv
    simp only [keyMem, List.map_cons, kMemL, Bool.or_eq_false_iff,
      decide_eq_false_iff_not] at h
    simp only [List.cons_append, dGet, if_neg h.1]
    exact ih h.2

theorem dSet_append_not_mem {k : MKey} {v u : Value} {A B : Doc}
    (h : keyMem k A = false) :
    dSet k v (A ++ (k, u) :: B) = A ++ (k, v) :: B := by
  induction A with
  | nil => simp [dSet]
  | cons kv r ih =>
    obtain ⟨k₁, v₁⟩ := kv
    simp only [keyMem, List.map_cons, kMemL, Bool.or_eq_false_iff,
      decide_eq_false_iff_not] at h
    simp only [List.cons_append, dSet, if_neg h.1]
    show (k₁, v₁) :: dSet k v (r ++ (k, u) :: B) = (k₁, v₁) :: (r ++ (k, v) :: B)
    rw [ih h.2]

/-! ## Lemmas about `vOk` -/

theorem vOkList_iff {kp : MKey → Bool} {no nd : Bool} {xs : List Value} :
    vOkList kp no nd xs = true ↔ ∀ v ∈ xs, vOk kp no nd v = true := by
  induction xs with
  | nil => simp [vOkList]
  | cons v vs ih => simp [vOkList, ih]

theorem vOkKVs_iff {kp : MKey → Bool} {no nd : Bool} {d : Doc} :
    vOkKVs kp no nd d = true ↔
      ∀ k v, (k, v) ∈ d → kp k = true ∧ vOk kp no nd v = true := by
  induction d with
  | nil => simp [vOkKVs]
  | cons kv r ih =>
    obtain ⟨k, v⟩ := kv
    simp only [vOkKVs, Bool.and_eq_true, ih, List.mem_cons]
    constructor
    · rintro ⟨⟨h1, h2⟩, h3⟩ a b hab
      rcases hab with hab | hab
      · obtain ⟨rfl, rfl⟩ := Prod.mk.injEq .. ▸ hab
        exact ⟨h1, h2⟩
      · exact h3 a b hab
    · intro h
      exact ⟨h k v (Or.inl rfl), fun a b hab => h a b (Or.inr hab)⟩

theorem vOk_dict_iff {kp : MKey → Bool} {no nd : Bool} {d : Doc} :
    vOk kp no nd (.vdict d) = true ↔
      (nd = true → keysNodupB d = true) ∧
      ∀ k v, (k, v) ∈ d → kp k = true ∧ vOk kp no nd v = true := by
  show ((!nd || keysNodupB d) && vOkKVs kp no nd d) = true ↔ _
  rw [Bool.and_eq_true, Bool.or_eq_true, Bool.not_eq_true', vOkKVs_iff]
  constructor
  · rintro ⟨h1 | h1, h2⟩
    · exact ⟨fun hnd => absurd hnd (by simp [h1]), h2⟩
    · exact ⟨fun _ => h1, h2⟩
  · rintro ⟨h1, h2⟩
    refine ⟨?_, h2⟩
    cases nd with
    | false => exact Or.inl rfl
    | true => exact Or.inr (h1 rfl)

theorem vOk_list_iff {kp : MKey → Bool} {no nd : Bool} {xs : List Value} :
    vOk kp no nd (.vlist xs) = true ↔ ∀ v ∈ xs, vOk kp no nd v = true := by
  show vOkList kp no nd xs = true ↔ _
  exact vOkList_iff

theorem vOk_mono {kp kp₂ : MKey → Bool} {no no₂ nd nd₂ : Bool}
    (hkp : ∀ k, kp k = true → kp₂ k = true) (hno : no = true → no₂ = true)
    (hnd : nd₂ = true → nd = true) :
    ∀ v, vOk kp no nd v = true → vOk kp₂ no₂ nd₂ v = true := by
  intro v
  induction v using Value.indOn with
  | hnull => exact fun h => hno h
  | hstr s => intro h; rfl
  | hint n => intro h; rfl
  | hrat q => intro h; rfl
  | hbytes b => intro h; rfl
  | hlist xs ih =>
    intro h
    rw [vOk_list_iff] at h ⊢
    exact fun v hv => ih v hv (h v hv)
  | hdict kvs ih =>
    intro h
    rw [vOk_dict_iff] at h ⊢
    refine ⟨fun h2 => h.1 (hnd h2), fun k v hkv => ?_⟩
    obtain ⟨h1, h2⟩ := h.2 k v hkv
    exact ⟨hkp k h1, ih k v hkv h2⟩

/-! ## Properties of the key rewriting -/

theorem mem_pyReplaceDollar {c : Char} {s : Chars}
    (h : c ∈ pyReplaceDollar s) : c ∈ s ∨ c ∈ ("dollar_".data) := by
  induction s with
  | nil => simp [pyReplaceDollar] at h
  | cons x r ih =>
    by_cases hx : x = '$'
    · rw [pyReplaceDollar, if_pos hx] at h
      rcases List.mem_append.mp h with h1 | h1
      · exact Or.inr h1
      · rcases ih h1 with h2 | h2
        · exact Or.inl (List.mem_cons_of_mem _ h2)
        · exact Or.inr h2
    · rw [pyReplaceDollar, if_neg hx] at h
      rcases List.mem_cons.mp h with rfl | h1
      · exact Or.inl (List.mem_cons_self _ _)
      · rcases ih h1 with h2 | h2
        · exact Or.inl (List.mem_cons_of_mem _ h2)
        · exact Or.inr h2

theorem mem_pyReplaceChar {c a r : Char} {s : Chars}
    (h : a ∈ pyReplaceChar c r s) : (a ∈ s ∧ a ≠ c) ∨ a = r := by
  rcases List.mem_map.mp h with ⟨x, hx, hfx⟩
  by_cases hxc : x = c
  · rw [if_pos hxc] at hfx
    exact Or.inr hfx.symm
  · rw [if_neg hxc] at hfx
    subst hfx
    exact Or.inl ⟨hx, hxc⟩

theorem contains_iff_mem {c : Char} {s : Chars} : s.contains c = true ↔ c ∈ s := by
  simp

/-- `fixedKeyChars k` never contains `.`. -/
theorem fixedKey_no_dot (k : Chars) : (fixedKeyChars k).contains '.' = false := by
  rw [fixedKeyChars]
  by_cases hdot : k.contains '.'
  · simp only [hdot, if_true]
    rw [Bool.eq_false_iff]
    intro hc
    by_cases hdash : k.contains '-'
    · simp only [hdash, if_true] at hc
      rcases mem_pyReplaceChar (contains_iff_mem.mp hc) with ⟨h1, _⟩ | h1
      · rcases mem_pyReplaceChar h1 with ⟨_, h2⟩ | h2
        · exact h2 rfl
        · exact absurd h2 (by decide)
      · exact absurd h1 (by decide)
    · simp only [hdash, if_false] at hc
      rcases mem_pyReplaceChar (contains_iff_mem.mp hc) with ⟨_, h2⟩ | h2
      · exact h2 rfl
      · exact absurd h2 (by decide)
  · simp only [hdot, if_false]
    rw [Bool.eq_false_iff]
    intro hc
    have hmem : ('.' : Char) ∈ k → False := by
      intro hm
      rw [contains_iff_mem.mpr hm] at hdot
      exact hdot rfl
    by_cases hdash : k.contains '-'
    · simp only [hdash, if_true] at hc
      rcases mem_pyReplaceChar (contains_iff_mem.mp hc) with ⟨h1, _⟩ | h1
      · by_cases hd : pyStartsDollar k
        · simp only [hd, if_true] at h1
          rcases mem_pyReplaceDollar h1 with h2 | h2
          · exact hmem h2
          · exact absurd h2 (by decide)
        · simp only [hd, if_false] at h1
          exact hmem h1
      · exact absurd h1 (by decide)
    · simp only [hdash, if_false] at hc
      by_cases hd : pyStartsDollar k
      · simp only [hd, if_true] at hc
        rcases mem_pyReplaceDollar (contains_iff_mem.mp hc) with h2 | h2
        · exact hmem h2
        · exact absurd h2 (by decide)
      · simp only [hd, if_false] at hc
        exact hmem (contains_iff_mem.mp hc)

/-- `fixedKeyChars k` never contains `-`. -/
theorem fixedKey_no_dash (k : Chars) : (fixedKeyChars k).contains '-' = false := by
  rw [fixedKeyChars]
  by_cases hdash : k.contains '-'
  · simp only [hdash, if_true]
    rw [Bool.eq_false_iff]
    intro hc
    rcases mem_pyReplaceChar (contains_iff_mem.mp hc) with ⟨_, h2⟩ | h2
    · exact h2 rfl
    · exact absurd h2 (by decide)
  · simp only [hdash, if_false]
    rw [Bool.eq_false_iff]
    intro hc
    have hmem : ('-' : Char) ∈ k → False := by
      intro hm
      rw [contains_iff_mem.mpr hm] at hdash
      exact hdash rfl
    have hn1 : ('-' : Char) ∈ (if pyStartsDollar k then pyReplaceDollar k else k) → False := by
      intro h1
      by_cases hd : pyStartsDollar k
      · simp only [hd, if_true] at h1
        rcases mem_pyReplaceDollar h1 with h2 | h2
        · exact hmem h2
        · exact absurd h2 (by decide)
      · simp only [hd, if_false] at h1
        exact hmem h1
    by_cases hdot : k.contains '.'
    · simp only [hdot, if_true] at hc
      rcases mem_pyReplaceChar (contains_iff_mem.mp hc) with ⟨h1, _⟩ | h1
      · exact hn1 h1
      · exact absurd h1 (by decide)
    · simp only [hdot, if_false] at hc
      exact hn1 (contains_iff_mem.mp hc)

theorem pyStartsDollar_pyReplaceDollar (s : Chars) :
    pyStartsDollar (pyReplaceDollar s) = false := by
  cases s with
  | nil => rfl
  | cons c t =>
    by_cases hc : c = '$'
    · rw [pyReplaceDollar, if_pos hc]
      rfl
    · rw [pyReplaceDollar, if_neg hc]
      simp [pyStartsDollar, hc]

theorem pyStartsDollar_pyReplaceChar {c r : Char} {s : Chars} (hr : r ≠ '$')
    (h : pyStartsDollar s = false) :
    pyStartsDollar (pyReplaceChar c r s) = false := by
  cases s with
  | nil => rfl
  | cons x t =>
    simp only [pyStartsDollar, decide_eq_false_iff_not] at h
    by_cases hx : x = c
    · simp [pyReplaceChar, pyStartsDollar, hx, hr]
    · simp [pyReplaceChar, pyStartsDollar, hx, h]

/-- `fixedKeyChars k` never starts with `$`. -/
theorem fixedKey_not_dollar (k : Chars) :
    pyStartsDollar (fixedKeyChars k) = false := by
  rw [fixedKeyChars]
  have hn1 : pyStartsDollar (if pyStartsDollar k then pyReplaceDollar k else k) = false := by
    by_cases hd : pyStartsDollar k
    · simp only [hd, if_true]
      exact pyStartsDollar_pyReplaceDollar k
    · simp only [hd, if_false]
      exact Bool.eq_false_iff.mpr hd
  have hn2 : pyStartsDollar
      (if k.contains '.'
       then pyReplaceChar '.' '_' (if pyStartsDollar k then pyReplaceDollar k else k)
       else (if pyStartsDollar k then pyReplaceDollar k else k)) = false := by
    by_cases hdot : k.contains '.'
    · simp only [hdot, if_true]
      exact pyStartsDollar_pyReplaceChar (by decide) hn1
    · simp only [hdot, if_false]
      exact hn1
  by_cases hdash : k.contains '-'
  · simp only [hdash, if_true]
    exact pyStartsDollar_pyReplaceChar (by decide) hn2
  · simp only [hdash, if_false]
    exact hn2

/-- The rewritten form of any key is clean. -/
theorem cleanChars_fixedKey (k : Chars) : cleanChars (fixedKeyChars k) = true := by
  rw [cleanChars, fixedKey_not_dollar, fixedKey_no_dot, fixedKey_no_dash]
  rfl

/-- A clean key is left alone by the rewriting. -/
theorem fixedKey_of_clean {k : Chars} (h : cleanChars k = true) :
    fixedKeyChars k = k := by
  rw [cleanChars, Bool.and_eq_true, Bool.and_eq_true, Bool.not_eq_true',
    Bool.not_eq_true', Bool.not_eq_true'] at h
  rw [fixedKeyChars]
  simp only [h.1.1, h.1.2, h.2, Bool.false_eq_true, if_false]

/-- Conversely, a key the rewriting leaves alone is clean. -/
theorem cleanChars_of_fixedKey_eq {k : Chars} (h : fixedKeyChars k = k) :
    cleanChars k = true := by
  by_cases h1 : pyStartsDollar k = true
  · have hx := fixedKey_not_dollar k
    rw [h, h1] at hx
    exact absurd hx (by decide)
  · by_cases h2 : k.contains '.' = true
    · have hx := fixedKey_no_dot k
      rw [h, h2] at hx
      exact absurd hx (by decide)
    · by_cases h3 : k.contains '-' = true
      · have hx := fixedKey_no_dash k
        rw [h, h3] at hx
        exact absurd hx (by decide)
      · rw [cleanChars, Bool.eq_false_iff.mpr h1, Bool.eq_false_iff.mpr h2,
          Bool.eq_false_iff.mpr h3]
        rfl

theorem not_keyMem_dPop_self {k : MKey} {d : Doc}
    (hnd : keysNodupB d = true) : keyMem k (dPop k d) = false := by
  rw [Bool.eq_false_iff]
  intro h
  rcases keyMem_iff.mp h with ⟨u, hu⟩
  exact not_mem_dPop_self hnd hu

/-! ## The dict pass of `fix_keys`: invariants -/

/-- Invariant of the snapshot fold: if every write-back value is `Good`
and every slot of the working dict is already clean-and-`Good` or still
awaits its snapshot entry, then after the pass every slot is
clean-and-`Good`, and distinctness of keys is preserved. -/
theorem fixPass_inv (Good : Value → Prop) :
    ∀ (snap : List (MKey × Value × Value)) (D : Doc),
    keysNodupB D = true →
    (∀ k v w, (k, v, w) ∈ snap → Good w) →
    (∀ k u, (k, u) ∈ D → (cleanMKey k = true ∧ Good u) ∨ ∃ w, (k, u, w) ∈ snap) →
    keysNodupB (fixPass snap D) = true ∧
      (∀ k u, (k, u) ∈ fixPass snap D → cleanMKey k = true ∧ Good u) := by
  intro snap
  induction snap with
  | nil =>
    intro D hnd _ h4
    refine ⟨hnd, fun k u hm => ?_⟩
    rcases h4 k u hm with h | ⟨w, hw⟩
    · exact h
    · simp at hw
  | cons hd rest ih =>
    obtain ⟨k, v, w⟩ := hd
    intro D hnd hs h4
    have hGw : Good w := hs k v w (List.mem_cons_self _ _)
    have hs' : ∀ k v w, (k, v, w) ∈ rest → Good w :=
      fun k v w hm => hs k v w (List.mem_cons_of_mem _ hm)
    show keysNodupB (fixPass rest (fixEntry k v w D)) = true ∧
      (∀ a u, (a, u) ∈ fixPass rest (fixEntry k v w D) → cleanMKey a = true ∧ Good u)
    cases k with
    | kstr s =>
      by_cases hren : fixedKeyChars s ≠ s
      · -- rename branch
        have hD : fixEntry (.kstr s) v w D =
            dSet (.kstr (fixedKeyChars s)) w (dPop (.kstr s) D) := by
          rw [fixEntry, if_pos hren]
        rw [hD]
        have hndPop := keysNodupB_dPop (k := .kstr s) hnd
        refine ih _ (keysNodupB_dSet hndPop) hs' ?_
        intro a u hm
        rcases (mem_dSet hndPop).mp hm with ⟨rfl, rfl⟩ | ⟨hne, hmem⟩
        · exact Or.inl ⟨cleanChars_fixedKey s, hGw⟩
        · have hmemD := mem_dPop hmem
          have hak : a ≠ .kstr s := by
            rintro rfl
            exact not_mem_dPop_self hnd hmem
          rcases h4 a u hmemD with h | ⟨w₁, hw₁⟩
          · exact Or.inl h
          · rcases List.mem_cons.mp hw₁ with heq | hrest
            · exact absurd (congrArg (fun x => x.1) heq) hak
            · exact Or.inr ⟨w₁, hrest⟩
      · -- no rename: the key is clean
        push_neg at hren
        have hclean : cleanMKey (.kstr s) = true := cleanChars_of_fixedKey_eq hren
        have hD : fixEntry (.kstr s) v w D =
            (if dGet (.kstr s) D = some v then dSet (.kstr s) w D else D) := by
          rw [fixEntry, if_neg (by simp [hren])]
        rw [hD]
        by_cases hget : dGet (.kstr s) D = some v
        · rw [if_pos hget]
          refine ih _ (keysNodupB_dSet hnd) hs' ?_
          intro a u hm
          rcases (mem_dSet hnd).mp hm with ⟨rfl, rfl⟩ | ⟨hne, hmem⟩
          · exact Or.inl ⟨hclean, hGw⟩
          · rcases h4 a u hmem with h | ⟨w₁, hw₁⟩
            · exact Or.inl h
            · rcases List.mem_cons.mp hw₁ with heq | hrest
              · exact absurd (congrArg (fun x => x.1) heq) hne
              · exact Or.inr ⟨w₁, hrest⟩
        · rw [if_neg hget]
          refine ih _ hnd hs' ?_
          intro a u hm
          rcases h4 a u hm with h | ⟨w₁, hw₁⟩
          · exact Or.inl h
          · rcases List.mem_cons.mp hw₁ with heq | hrest
            · exfalso
              have ha : a = .kstr s := congrArg (fun x => x.1) heq
              have hu : u = v := congrArg (fun x => x.2.1) heq
              subst ha; subst hu
              exact hget (dGet_of_mem hnd hm)
            · exact Or.inr ⟨w₁, hrest⟩
    | kint n =>
      have hD : fixEntry (.kint n) v w D =
          (if dGet (.kint n) D = some v then dSet (.kint n) w D else D) := rfl
      rw [hD]
      by_cases hget : dGet (.kint n) D = some v
      · rw [if_pos hget]
        refine ih _ (keysNodupB_dSet hnd) hs' ?_
        intro a u hm
        rcases (mem_dSet hnd).mp hm with ⟨rfl, rfl⟩ | ⟨hne, hmem⟩
        · exact Or.inl ⟨rfl, hGw⟩
        · rcases h4 a u hmem with h | ⟨w₁, hw₁⟩
          · exact Or.inl h
          · rcases List.mem_cons.mp hw₁ with heq | hrest
            · exact absurd (congrArg (fun x => x.1) heq) hne
            · exact Or.inr ⟨w₁, hrest⟩
      · rw [if_neg hget]
        refine ih _ hnd hs' ?_
        intro a u hm
        rcases h4 a u hm with h | ⟨w₁, hw₁⟩
        · exact Or.inl h
        · rcases List.mem_cons.mp hw₁ with heq | hrest
          · exfalso
            have ha : a = .kint n := congrArg (fun x => x.1) heq
            have hu : u = v := congrArg (fun x => x.2.1) heq
            subst ha; subst hu
            exact hget (dGet_of_mem hnd hm)
          · exact Or.inr ⟨w₁, hrest⟩

theorem keyMem_append {k : MKey} {A B : Doc} :
    keyMem k (A ++ B) = (keyMem k A || keyMem k B) := by
  induction A with
  | nil => simp [keyMem, kMemL]
  | cons kv r ih =>
    obtain ⟨a, x⟩ := kv
    simp only [List.cons_append, keyMem, List.map_cons, kMemL, List.append_eq] at *
    rw [ih, Bool.or_assoc]

theorem keysNodupB_append_right {A B : Doc}
    (h : keysNodupB (A ++ B) = true) : keysNodupB B = true := by
  induction A with
  | nil => exact h
  | cons kv r ih =>
    obtain ⟨a, x⟩ := kv
    rw [List.cons_append, keysNodupB_cons, Bool.and_eq_true] at h
    exact ih h.2

theorem keyMem_false_of_nodup_append {k : MKey} {v : Value} {A B : Doc}
    (h : keysNodupB (A ++ (k, v) :: B) = true) : keyMem k A = false := by
  induction A with
  | nil => rfl
  | cons kv r ih =>
    obtain ⟨a, x⟩ := kv
    rw [List.cons_append, keysNodupB_cons, Bool.and_eq_true, Bool.not_eq_true'] at h
    simp only [keyMem, List.map_cons, kMemL, Bool.or_eq_false_iff,
      decide_eq_false_iff_not]
    refine ⟨?_, ih h.2⟩
    rintro rfl
    have hx : keyMem a (r ++ (a, v) :: B) = true := by
      rw [keyMem_append]
      have h2 : keyMem a ((a, v) :: B) = true :=
        keyMem_iff.mpr ⟨v, List.mem_cons_self _ _⟩
      rw [h2, Bool.or_true]
    rw [hx] at h
    exact absurd h.1 (by decide)

@[simp] theorem fix_keys_vdict (d : Doc) :
    fix_keys (.vdict d) = .vdict (fixPass (enrich d) d) := rfl

@[simp] theorem fix_keys_vlist (xs : List Value) :
    fix_keys (.vlist xs) = .vlist (xs.map fix_keys) := by
  show Value.vlist (fixKeysList xs) = _
  rw [fixKeysList_eq_map]

/-- On a dict whose keys are pairwise distinct and clean, the snapshot
pass reduces to recursively fixing every value in place. -/
theorem fixPass_map_aux :
    ∀ (B A2 : Doc), keysNodupB (A2 ++ B) = true →
    (∀ k u, (k, u) ∈ A2 ++ B → cleanMKey k = true) →
    fixPass (enrich B) (A2 ++ B) = A2 ++ B.map (fun kv => (kv.1, fix_keys kv.2)) := by
  intro B
  induction B with
  | nil => intro A2 _ _; simp [enrich, fixPass]
  | cons kv tl ih =>
    obtain ⟨k, v⟩ := kv
    intro A2 hnd hcl
    have hkclean : cleanMKey k = true :=
      hcl k v (by simp)
    have hmemA2 : keyMem k A2 = false := keyMem_false_of_nodup_append hnd
    have hget : dGet k (A2 ++ (k, v) :: tl) = some v := by
      rw [dGet_append_not_mem hmemA2, dGet, if_pos rfl]
    have hentry : fixEntry k v (fix_keys v) (A2 ++ (k, v) :: tl) =
        A2 ++ (k, fix_keys v) :: tl := by
      cases k with
      | kstr s =>
        have hfix : fixedKeyChars s = s := fixedKey_of_clean hkclean
        rw [fixEntry, if_neg (by simp [hfix]), if_pos hget,
          dSet_append_not_mem hmemA2]
      | kint n =>
        show (if dGet _ _ = some v then dSet _ _ _ else _) = _
        rw [if_pos hget, dSet_append_not_mem hmemA2]
    show fixPass (enrich tl) (fixEntry k v (fix_keys v) (A2 ++ (k, v) :: tl)) = _
    rw [hentry]
    have hkeys : ((A2 ++ [(k, fix_keys v)]) ++ tl).map Prod.fst =
        ((A2 ++ (k, v) :: tl)).map Prod.fst := by
      simp
    have hnd' : keysNodupB ((A2 ++ [(k, fix_keys v)]) ++ tl) = true := by
      show kndL (((A2 ++ [(k, fix_keys v)]) ++ tl).map Prod.fst) = true
      rw [hkeys]
      exact hnd
    have hcl' : ∀ a u, (a, u) ∈ (A2 ++ [(k, fix_keys v)]) ++ tl →
        cleanMKey a = true := by
      intro a u hm
      rcases List.mem_append.mp hm with hm1 | hm1
      · rcases List.mem_append.mp hm1 with hm2 | hm2
        · exact hcl a u (List.mem_append.mpr (Or.inl hm2))
        · have ha : a = k := congrArg Prod.fst (List.mem_singleton.mp hm2)
          rw [ha]
          exact hkclean
      · exact hcl a u (List.mem_append.mpr (Or.inr (List.mem_cons_of_mem _ hm1)))
    have hstep := ih (A2 ++ [(k, fix_keys v)]) (by simpa [List.append_assoc] using hnd')
      (by intro a u hm; exact hcl' a u (by simpa [List.append_assoc] using hm))
    rw [show (A2 ++ [(k, fix_keys v)]) ++ tl = A2 ++ (k, fix_keys v) :: tl by simp] at hstep
    rw [hstep]
    simp

theorem fixPass_map {d : Doc} (hnd : keysNodupB d = true)
    (hcl : ∀ k u, (k, u) ∈ d → cleanMKey k = true) :
    fixPass (enrich d) d = d.map (fun kv => (kv.1, fix_keys kv.2)) := by
  have := fixPass_map_aux d [] (by simpa using hnd) (by simpa using hcl)
  simpa using this

/-! ## Properties of `replace_none` -/

theorem keysNodupB_map_values {f : Value → Value} {d : Doc} :
    keysNodupB (d.map (fun kv => (kv.1, f kv.2))) = keysNodupB d := by
  show kndL _ = kndL _
  congr 1
  rw [List.map_map]
  rfl

@[simp] theorem replace_none_vlist (xs : List Value) :
    replace_none (.vlist xs) = .vlist (xs.map replaceNoneElem) := by
  show Value.vlist (replaceNoneList xs) = _
  rw [replaceNoneList_eq_map]

@[simp] theorem replace_none_vdict (d : Doc) :
    replace_none (.vdict d) =
      .vdict (d.map (fun kv => (kv.1, replaceNoneElem kv.2))) := by
  show Value.vdict (replaceNoneKVs d) = _
  rw [replaceNoneKVs_eq_map]

@[simp] theorem replaceNoneElem_vlist (xs : List Value) :
    replaceNoneElem (.vlist xs) = .vlist (xs.map replaceNoneElem) := by
  show Value.vlist (replaceNoneList xs) = _
  rw [replaceNoneList_eq_map]

@[simp] theorem replaceNoneElem_vdict (d : Doc) :
    replaceNoneElem (.vdict d) =
      .vdict (d.map (fun kv => (kv.1, replaceNoneElem kv.2))) := by
  show Value.vdict (replaceNoneKVs d) = _
  rw [replaceNoneKVs_eq_map]

/-- After the per-child normalization, no `null` remains anywhere. -/
theorem nullFree_replaceNoneElem : ∀ v, nullFreeB (replaceNoneElem v) = true := by
  intro v
  induction v using Value.indOn with
  | hnull => rfl
  | hstr s => rfl
  | hint n => rfl
  | hrat q => rfl
  | hbytes b => rfl
  | hlist xs ih =>
    rw [replaceNoneElem_vlist]
    rw [show nullFreeB (Value.vlist (xs.map replaceNoneElem)) =
      vOk (fun _ => true) false false (Value.vlist (xs.map replaceNoneElem)) from rfl]
    rw [vOk_list_iff]
    intro v hv
    rcases List.mem_map.mp hv with ⟨u, hu, rfl⟩
    exact ih u hu
  | hdict kvs ih =>
    rw [replaceNoneElem_vdict]
    rw [show nullFreeB (Value.vdict (kvs.map (fun kv => (kv.1, replaceNoneElem kv.2)))) =
      vOk (fun _ => true) false false
        (Value.vdict (kvs.map (fun kv => (kv.1, replaceNoneElem kv.2)))) from rfl]
    rw [vOk_dict_iff]
    refine ⟨fun h => by simp at h, ?_⟩
    intro k v hkv
    rcases List.mem_map.mp hkv with ⟨⟨k₁, v₁⟩, hm, he⟩
    have hk : k = k₁ := (congrArg Prod.fst he).symm
    have hv : v = replaceNoneElem v₁ := (congrArg Prod.snd he).symm
    subst hk
    subst hv
    exact ⟨rfl, ih k v₁ hm⟩

/-- A value with no `null` anywhere is a fixed point of the
normalization. -/
theorem replaceNoneElem_of_nullFree : ∀ v, nullFreeB v = true → replaceNoneElem v = v := by
  intro v
  induction v using Value.indOn with
  | hnull => intro h; exact absurd h (by decide)
  | hstr s => intro _; rfl
  | hint n => intro _; rfl
  | hrat q => intro _; rfl
  | hbytes b => intro _; rfl
  | hlist xs ih =>
    intro h
    rw [show nullFreeB (Value.vlist xs) =
      vOk (fun _ => true) false false (Value.vlist xs) from rfl, vOk_list_iff] at h
    rw [replaceNoneElem_vlist]
    congr 1
    have hx : List.map replaceNoneElem xs = List.map id xs :=
      List.map_congr_left (fun v hv => by rw [id_eq, ih v hv (h v hv)])
    rw [hx, List.map_id]
  | hdict kvs ih =>
    intro h
    rw [show nullFreeB (Value.vdict kvs) =
      vOk (fun _ => true) false false (Value.vdict kvs) from rfl, vOk_dict_iff] at h
    rw [replaceNoneElem_vdict]
    congr 1
    have hx : List.map (fun kv => (kv.1, replaceNoneElem kv.2)) kvs = List.map id kvs := by
      refine List.map_congr_left ?_
      rintro ⟨k, v⟩ hkv
      rw [id_eq, ih k v hkv (h.2 k v hkv).2]
    rw [hx, List.map_id]

theorem replaceNoneElem_idem (v : Value) :
    replaceNoneElem (replaceNoneElem v) = replaceNoneElem v :=
  replaceNoneElem_of_nullFree _ (nullFree_replaceNoneElem v)

/-- `replace_none` and `replaceNoneElem` agree except on a bare
top-level `None`, which `replace_none` returns unchanged. -/
theorem replace_none_eq_elem_of_container {v : Value} (h : isContainer v = true) :
    replace_none v = replaceNoneElem v := by
  cases v <;> first | rfl | exact absurd h (by decide)

/-- Normalization preserves well-formedness (it never touches keys). -/
theorem wfV_replaceNoneElem : ∀ v, wfV v = true → wfV (replaceNoneElem v) = true := by
  intro v
  induction v using Value.indOn with
  | hnull => intro _; rfl
  | hstr s => intro _; rfl
  | hint n => intro _; rfl
  | hrat q => intro _; rfl
  | hbytes b => intro _; rfl
  | hlist xs ih =>
    intro h
    rw [show wfV (Value.vlist xs) =
      vOk (fun _ => true) true true (Value.vlist xs) from rfl, vOk_list_iff] at h
    rw [replaceNoneElem_vlist]
    rw [show wfV (Value.vlist (xs.map replaceNoneElem)) =
      vOk (fun _ => true) true true (Value.vlist (xs.map replaceNoneElem)) from rfl,
      vOk_list_iff]
    intro u hu
    rcases List.mem_map.mp hu with ⟨u₁, hm, rfl⟩
    exact ih u₁ hm (h u₁ hm)
  | hdict kvs ih =>
    intro h
    rw [show wfV (Value.vdict kvs) =
      vOk (fun _ => true) true true (Value.vdict kvs) from rfl, vOk_dict_iff] at h
    rw [replaceNoneElem_vdict]
    rw [show wfV (Value.vdict (kvs.map (fun kv => (kv.1, replaceNoneElem kv.2)))) =
      vOk (fun _ => true) true true
        (Value.vdict (kvs.map (fun kv => (kv.1, replaceNoneElem kv.2)))) from rfl,
      vOk_dict_iff]
    refine ⟨fun _ => ?_, ?_⟩
    · rw [keysNodupB_map_values]
      exact h.1 rfl
    · intro k v hkv
      rcases List.mem_map.mp hkv with ⟨⟨k₁, v₁⟩, hm, he⟩
      have hk : k = k₁ := (congrArg Prod.fst he).symm
      have hv : v = replaceNoneElem v₁ := (congrArg Prod.snd he).symm
      subst hk
      subst hv
      exact ⟨rfl, ih k v₁ hm (h.2 k v₁ hm).2⟩

/-! ## Refinement: `replace_none` against the specification words -/

@[simp] theorem nullNormSpecList_eq_map (xs : List Value) :
    nullNormSpecList xs = xs.map nullNormSpec := by
  induction xs with
  | nil => rfl
  | cons v vs ih => simp [nullNormSpecList, ih]

@[simp] theorem nullNormSpecKVs_eq_map (d : Doc) :
    nullNormSpecKVs d = d.map (fun kv => (kv.1, nullNormSpec kv.2)) := by
  induction d with
  | nil => rfl
  | cons kv r ih => obtain ⟨k, v⟩ := kv; simp [nullNormSpecKVs, ih]

theorem replaceNoneElem_eq_nullNormSpec : ∀ v, replaceNoneElem v = nullNormSpec v := by
  intro v
  induction v using Value.indOn with
  | hnull => rfl
  | hstr s => rfl
  | hint n => rfl
  | hrat q => rfl
  | hbytes b => rfl
  | hlist xs ih =>
    rw [replaceNoneElem_vlist]
    show _ = Value.vlist (nullNormSpecList xs)
    rw [nullNormSpecList_eq_map]
    congr 1
    exact List.map_congr_left ih
  | hdict kvs ih =>
    rw [replaceNoneElem_vdict]
    show _ = Value.vdict (nullNormSpecKVs kvs)
    rw [nullNormSpecKVs_eq_map]
    congr 1
    refine List.map_congr_left ?_
    rintro ⟨k, v⟩ hkv
    simp only
    rw [ih k v hkv]

/-! ## Main key-rewriting theorems -/

/-- After `fix_keys` on a well-formed value, every dict everywhere has
pairwise distinct, clean keys. -/
theorem sanitizedKeys_fix : ∀ v, wfV v = true → sanitizedKeys (fix_keys v) = true := by
  intro v
  induction v using Value.indOn with
  | hnull => intro _; rfl
  | hstr s => intro _; rfl
  | hint n => intro _; rfl
  | hrat q => intro _; rfl
  | hbytes b => intro _; rfl
  | hlist xs ih =>
    intro h
    rw [show wfV (Value.vlist xs) =
      vOk (fun _ => true) true true (Value.vlist xs) from rfl, vOk_list_iff] at h
    rw [fix_keys_vlist]
    rw [show sanitizedKeys (Value.vlist (xs.map fix_keys)) =
      vOk cleanMKey true true (Value.vlist (xs.map fix_keys)) from rfl, vOk_list_iff]
    intro u hu
    rcases List.mem_map.mp hu with ⟨u₁, hm, rfl⟩
    exact ih u₁ hm (h u₁ hm)
  | hdict kvs ih =>
    intro h
    rw [show wfV (Value.vdict kvs) =
      vOk (fun _ => true) true true (Value.vdict kvs) from rfl, vOk_dict_iff] at h
    have hnd : keysNodupB kvs = true := h.1 rfl
    have hinv := fixPass_inv (fun u => sanitizedKeys u = true) (enrich kvs) kvs hnd
      (by
        intro k v w hm
        rcases mem_enrich.mp hm with ⟨hmem, rfl⟩
        exact ih k v hmem (h.2 k v hmem).2)
      (by
        intro k u hm
        exact Or.inr ⟨fix_keys u, mem_enrich.mpr ⟨hm, rfl⟩⟩)
    rw [fix_keys_vdict]
    rw [show sanitizedKeys (Value.vdict (fixPass (enrich kvs) kvs)) =
      vOk cleanMKey true true (Value.vdict (fixPass (enrich kvs) kvs)) from rfl,
      vOk_dict_iff]
    exact ⟨fun _ => hinv.1, fun k v hkv => hinv.2 k v hkv⟩

/-- `fix_keys` introduces no `null` values. -/
theorem nullFree_fix : ∀ v, nullFreeB v = true → wfV v = true →
    nullFreeB (fix_keys v) = true := by
  intro v
  induction v using Value.indOn with
  | hnull => intro h _; exact absurd h (by decide)
  | hstr s => intro _ _; rfl
  | hint n => intro _ _; rfl
  | hrat q => intro _ _; rfl
  | hbytes b => intro _ _; rfl
  | hlist xs ih =>
    intro h hw
    rw [show nullFreeB (Value.vlist xs) =
      vOk (fun _ => true) false false (Value.vlist xs) from rfl, vOk_list_iff] at h
    rw [show wfV (Value.vlist xs) =
      vOk (fun _ => true) true true (Value.vlist xs) from rfl, vOk_list_iff] at hw
    rw [fix_keys_vlist]
    rw [show nullFreeB (Value.vlist (xs.map fix_keys)) =
      vOk (fun _ => true) false false (Value.vlist (xs.map fix_keys)) from rfl,
      vOk_list_iff]
    intro u hu
    rcases List.mem_map.mp hu with ⟨u₁, hm, rfl⟩
    exact ih u₁ hm (h u₁ hm) (hw u₁ hm)
  | hdict kvs ih =>
    intro h hw
    rw [show nullFreeB (Value.vdict kvs) =
      vOk (fun _ => true) false false (Value.vdict kvs) from rfl, vOk_dict_iff] at h
    rw [show wfV (Value.vdict kvs) =
      vOk (fun _ => true) true true (Value.vdict kvs) from rfl, vOk_dict_iff] at hw
    have hnd : keysNodupB kvs = true := hw.1 rfl
    have hinv := fixPass_inv (fun u => nullFreeB u = true) (enrich kvs) kvs hnd
      (by
        intro k v w hm
        rcases mem_enrich.mp hm with ⟨hmem, rfl⟩
        exact ih k v hmem (h.2 k v hmem).2 (hw.2 k v hmem).2)
      (by
        intro k u hm
        exact Or.inr ⟨fix_keys u, mem_enrich.mpr ⟨hm, rfl⟩⟩)
    rw [fix_keys_vdict]
    rw [show nullFreeB (Value.vdict (fixPass (enrich kvs) kvs)) =
      vOk (fun _ => true) false false (Value.vdict (fixPass (enrich kvs) kvs)) from rfl,
      vOk_dict_iff]
    exact ⟨fun hx => by simp at hx, fun k v hkv => ⟨rfl, (hinv.2 k v hkv).2⟩⟩

/-- A value whose dicts all have distinct clean keys is a fixed point of
`fix_keys`. -/
theorem fix_fixpoint : ∀ v, sanitizedKeys v = true → fix_keys v = v := by
  intro v
  induction v using Value.indOn with
  | hnull => intro _; rfl
  | hstr s => intro _; rfl
  | hint n => intro _; rfl
  | hrat q => intro _; rfl
  | hbytes b => intro _; rfl
  | hlist xs ih =>
    intro h
    rw [show sanitizedKeys (Value.vlist xs) =
      vOk cleanMKey true true (Value.vlist xs) from rfl, vOk_list_iff] at h
    rw [fix_keys_vlist]
    congr 1
    have hx : List.map fix_keys xs = List.map id xs :=
      List.map_congr_left (fun v hv => by rw [id_eq, ih v hv (h v hv)])
    rw [hx, List.map_id]
  | hdict kvs ih =>
    intro h
    rw [show sanitizedKeys (Value.vdict kvs) =
      vOk cleanMKey true true (Value.vdict kvs) from rfl, vOk_dict_iff] at h
    rw [fix_keys_vdict]
    congr 1
    rw [fixPass_map (h.1 rfl) (fun k u hm => (h.2 k u hm).1)]
    have hx : List.map (fun kv => (kv.1, fix_keys kv.2)) kvs = List.map id kvs := by
      refine List.map_congr_left ?_
      rintro ⟨k, v⟩ hkv
      rw [id_eq, ih k v hkv (h.2 k v hkv).2]
    rw [hx, List.map_id]

/-- `fix_keys` is idempotent on well-formed values. -/
theorem fix_idem {v : Value} (h : wfV v = true) :
    fix_keys (fix_keys v) = fix_keys v :=
  fix_fixpoint _ (sanitizedKeys_fix v h)

theorem keysCleanAll_of_sanitized {v : Value} (h : sanitizedKeys v = true) :
    keysCleanAll v = true :=
  vOk_mono (fun _ hk => hk) (fun h => h) (fun h => by simp at h) v h

theorem wfV_of_sanitized {v : Value} (h : sanitizedKeys v = true) :
    wfV v = true :=
  vOk_mono (fun _ _ => rfl) (fun h => h) (fun h => h) v h

theorem wfV_fix {v : Value} (h : wfV v = true) : wfV (fix_keys v) = true :=
  wfV_of_sanitized (sanitizedKeys_fix v h)

/-! ## Idempotence of the full sanitization -/

theorem replace_none_idem (v : Value) :
    replace_none (replace_none v) = replace_none v := by
  cases v with
  | vlist xs =>
    rw [replace_none_vlist, replace_none_vlist, List.map_map]
    congr 1
    exact List.map_congr_left (fun u _ => replaceNoneElem_idem u)
  | vdict kvs =>
    rw [replace_none_vdict, replace_none_vdict, List.map_map]
    congr 1
    refine List.map_congr_left ?_
    rintro ⟨k, u⟩ _
    show (k, replaceNoneElem (replaceNoneElem u)) = (k, replaceNoneElem u)
    rw [replaceNoneElem_idem]
  | vnull => rfl
  | vstr s => rfl
  | vint n => rfl
  | vrat q => rfl
  | vbytes b => rfl

theorem wfV_replace_none {v : Value} (h : wfV v = true) :
    wfV (replace_none v) = true := by
  cases v with
  | vlist xs =>
    have := wfV_replaceNoneElem (.vlist xs) h
    rwa [@replace_none_eq_elem_of_container (.vlist xs) rfl]
  | vdict kvs =>
    have := wfV_replaceNoneElem (.vdict kvs) h
    rwa [@replace_none_eq_elem_of_container (.vdict kvs) rfl]
  | vnull => exact h
  | vstr s => exact h
  | vint n => exact h
  | vrat q => exact h
  | vbytes b => exact h

theorem nullFree_replace_none_container {v : Value} (h : isContainer v = true) :
    nullFreeB (replace_none v) = true := by
  rw [replace_none_eq_elem_of_container h]
  exact nullFree_replaceNoneElem v

theorem replace_none_of_nullFree {v : Value} (h : nullFreeB v = true) :
    replace_none v = v := by
  cases v with
  | vnull => exact absurd h (by decide)
  | vlist xs =>
    have := replaceNoneElem_of_nullFree (.vlist xs) h
    rwa [@replace_none_eq_elem_of_container (.vlist xs) rfl]
  | vdict kvs =>
    have := replaceNoneElem_of_nullFree (.vdict kvs) h
    rwa [@replace_none_eq_elem_of_container (.vdict kvs) rfl]
  | vstr s => rfl
  | vint n => rfl
  | vrat q => rfl
  | vbytes b => rfl

/-- `fix_keys` maps containers to containers and scalars to themselves. -/
theorem isContainer_fix (v : Value) : isContainer (fix_keys v) = isContainer v := by
  cases v <;> rfl

theorem sanitize_idem {v : Value} (h : wfV v = true) :
    sanitize (sanitize v) = sanitize v := by
  rw [sanitize, sanitize]
  by_cases hc : isContainer v = true
  · have h1 : wfV (replace_none v) = true := wfV_replace_none h
    have h2 : nullFreeB (replace_none v) = true := nullFree_replace_none_container hc
    have h3 : nullFreeB (fix_keys (replace_none v)) = true := nullFree_fix _ h2 h1
    rw [replace_none_of_nullFree h3]
    exact fix_idem h1
  · cases v with
    | vnull => rfl
    | vstr s => rfl
    | vint n => rfl
    | vrat q => rfl
    | vbytes b => rfl
    | vlist xs => exact absurd rfl hc
    | vdict kvs => exact absurd rfl hc

/-! ## Sanitization of documents -/

theorem sanitizeDoc_eq (d : Doc) :
    sanitizeDoc d = fixPass (enrich (replaceNoneKVs d)) (replaceNoneKVs d) := rfl

theorem vdict_sanitizeDoc (d : Doc) :
    Value.vdict (sanitizeDoc d) = sanitize (.vdict d) := rfl

theorem dGet_map_values {k : MKey} {f : Value → Value} {d : Doc} :
    dGet k (d.map (fun kv => (kv.1, f kv.2))) = (dGet k d).map f := by
  induction d with
  | nil => rfl
  | cons kv r ih =>
    obtain ⟨k₁, v₁⟩ := kv
    by_cases hk : k₁ = k
    · subst hk; simp [dGet]
    · simp only [List.map_cons, dGet, if_neg hk, ih]

/-- On a document with distinct clean keys — every dict literal the
reactor builds is of this shape — sanitization is exactly a field-wise
transformation. -/
theorem sanitizeDoc_clean {d : Doc} (hnd : keysNodupB d = true)
    (hcl : ∀ k u, (k, u) ∈ d → cleanMKey k = true) :
    sanitizeDoc d = d.map (fun kv => (kv.1, fix_keys (replaceNoneElem kv.2))) := by
  rw [sanitizeDoc_eq, replaceNoneKVs_eq_map]
  rw [fixPass_map]
  · rw [List.map_map]
    rfl
  · rw [keysNodupB_map_values]
    exact hnd
  · intro k u hm
    rcases List.mem_map.mp hm with ⟨⟨k₁, v₁⟩, hmem, he⟩
    have hk : k = k₁ := (congrArg Prod.fst he).symm
    subst hk
    exact hcl k v₁ hmem

theorem dGet_sanitizeDoc_clean {d : Doc} {k : MKey} (hnd : keysNodupB d = true)
    (hcl : ∀ k u, (k, u) ∈ d → cleanMKey k = true) :
    dGet k (sanitizeDoc d) = (dGet k d).map (fun v => fix_keys (replaceNoneElem v)) := by
  rw [sanitizeDoc_clean hnd hcl]
  exact @dGet_map_values k (fun v => fix_keys (replaceNoneElem v)) d

/-! ## Fragment reassembly lemmas -/

theorem concatLoop_udh (bs : List Bytes) :
    ∀ (acc : Bytes) (pages : Nat),
    concatLoop .udh acc pages bs =
      (acc ++ (bs.map (fun b => b.drop 6)).flatten, pages + bs.length) := by
  induction bs with
  | nil => intro acc pages; simp [concatLoop]
  | cons b rest ih =>
    intro acc pages
    rw [concatLoop]
    rw [ih]
    simp [List.append_assoc, Nat.add_assoc, Nat.add_comm 1 rest.length]

theorem concatLoop_sar (bs : List Bytes) :
    ∀ (acc : Bytes) (pages : Nat),
    concatLoop .sar acc pages bs = (acc ++ bs.flatten, pages + bs.length) := by
  induction bs with
  | nil => intro acc pages; simp [concatLoop]
  | cons b rest ih =>
    intro acc pages
    rw [concatLoop]
    rw [ih]
    simp [List.append_assoc, Nat.add_assoc, Nat.add_comm 1 rest.length]

/-! ## Broker supervisor lemmas -/

theorem runFails_succ_right (n : Nat) (s : SupervisorRun) :
    runFails (n + 1) s = failStep (runFails n s) := by
  induction n generalizing s with
  | zero => rfl
  | succ m ih =>
    show runFails (m + 1) (failStep s) = _
    rw [ih (failStep s)]
    rfl

theorem runFails_add (a b : Nat) (s : SupervisorRun) :
    runFails (a + b) s = runFails b (runFails a s) := by
  induction b with
  | zero => rfl
  | succ m ih =>
    rw [show a + (m + 1) = (a + m) + 1 by omega, runFails_succ_right,
      runFails_succ_right, ih]

theorem failStep_stopped {s : SupervisorRun} (h : s.stopped = true) :
    failStep s = s := by
  rw [failStep, if_pos h]

theorem runFails_stopped {s : SupervisorRun} (h : s.stopped = true) :
    ∀ n, runFails n s = s := by
  intro n
  induction n with
  | zero => rfl
  | succ m ih => rw [runFails_succ_right, ih, failStep_stopped h]

/-- With retries enabled, a bounded budget `N > 0` and `j ≤ N` failures
so far, the supervisor has scheduled `j` reconnects and holds
`N - j` remaining retries. -/
theorem runFails_progress (N : Nat) (hN : 0 < N) :
    ∀ j, j ≤ N →
    runFails j ⟨initRetryState true (N : Int), false, 0, 0⟩ =
      ⟨⟨true, (N : Int) - (j : Int), false⟩, false, j, 0⟩ := by
  intro j
  induction j with
  | zero =>
    intro _
    have h1 : decide ((N : Int) ≤ 0) = false := by
      rw [decide_eq_false_iff_not]
      omega
    show SupervisorRun.mk (initRetryState true (N : Int)) false 0 0 = _
    rw [initRetryState, h1]
    simp
  | succ m ih =>
    intro hle
    rw [runFails_succ_right, ih (by omega)]
    rw [failStep]
    rw [if_neg (by simp)]
    rw [ConError, reconnectOrStop]
    rw [if_neg (by
      simp only [not_or]
      constructor
      · simp
      · intro hx
        have : (N : Int) - (m : Int) ≤ 0 := hx.1
        omega)]
    simp only
    congr 2
    omega

/-! ## Consumer loop lemmas -/

theorem consumeLoop_cons_ok {privacy : Bool} {g : Event} {rest : List Event}
    {db db₁ : DB} (he : processEvent privacy g db = .ok db₁) :
    consumeLoop privacy (g :: rest) db =
      ⟨g.message_id :: (consumeLoop privacy rest db₁).acked,
       (consumeLoop privacy rest db₁).db,
       (consumeLoop privacy rest db₁).aborted⟩ := by
  rw [consumeLoop, he]

theorem consumeLoop_cons_error {privacy : Bool} {g : Event} {rest : List Event}
    {db : DB} {u : Unit} (he : processEvent privacy g db = .error u) :
    consumeLoop privacy (g :: rest) db = ⟨[], db, true⟩ := by
  rw [consumeLoop, he]

theorem consumeLoop_append_fail (privacy : Bool) :
    ∀ (goods : List Event) (bad : Event) (rest : List Event) (db : DB),
    (consumeLoop privacy goods db).aborted = false →
    processEvent privacy bad (consumeLoop privacy goods db).db = .error () →
    consumeLoop privacy (goods ++ bad :: rest) db =
      ⟨goods.map (fun e => e.message_id), (consumeLoop privacy goods db).db, true⟩ := by
  intro goods
  induction goods with
  | nil =>
    intro bad rest db _ hbad
    have hbad2 : processEvent privacy bad db = .error () := hbad
    show consumeLoop privacy (bad :: rest) db = _
    rw [consumeLoop_cons_error hbad2]
    rfl
  | cons g gs ih =>
    intro bad rest db hgood hbad
    cases he : processEvent privacy g db with
    | error u =>
      rw [consumeLoop_cons_error he] at hgood
      simp at hgood
    | ok db₁ =>
      rw [consumeLoop_cons_ok he] at hgood hbad
      have hgood2 : (consumeLoop privacy gs db₁).aborted = false := hgood
      have hbad2 : processEvent privacy bad (consumeLoop privacy gs db₁).db =
          .error () := hbad
      show consumeLoop privacy (g :: (gs ++ bad :: rest)) db = _
      rw [consumeLoop_cons_ok he, ih bad rest db₁ hgood2 hbad2,
        consumeLoop_cons_ok he]
      rfl

/-! ## Store helper lemmas -/

theorem get_one_submodule_single {mid : Chars} {doc : Doc} :
    get_one_submodule mid [(mid, doc)] = some doc := by
  rw [get_one_submodule, if_pos rfl]

theorem update_one_nil {mid : Chars} {data : Doc} :
    update_one mid data [] = [(mid, mergeDoc [] data)] := rfl

theorem update_one_single {mid : Chars} {doc data : Doc} :
    update_one mid data [(mid, doc)] = [(mid, mergeDoc doc data)] := by
  rw [update_one, if_pos rfl]

theorem mergeDoc_single {base : Doc} {k : MKey} {v : Value} :
    mergeDoc base [(k, v)] = dSet k v base := rfl

/-- Sanitization of the single-field partial document written by the
DeliveryReceipt path. -/
theorem sanitizeDoc_dlr_single (x : Value) :
    sanitizeDoc [(kOf ("dlr"), x)] =
      [(kOf ("dlr"), fix_keys (replaceNoneElem x))] := by
  rw [sanitizeDoc_clean]
  · rfl
  · rfl
  · intro k u hm
    rcases List.mem_singleton.mp hm with heq
    have hk : k = kOf ("dlr") := congrArg Prod.fst heq
    rw [hk]
    rfl

theorem wfV_dSet_str {h : Doc} {k : MKey} {t : Chars}
    (hw : wfV (.vdict h) = true) : wfV (.vdict (dSet k (.vstr t) h)) = true := by
  rw [show wfV (Value.vdict h) =
    vOk (fun _ => true) true true (Value.vdict h) from rfl, vOk_dict_iff] at hw
  have hnd : keysNodupB h = true := hw.1 rfl
  rw [show wfV (Value.vdict (dSet k (.vstr t) h)) =
    vOk (fun _ => true) true true (Value.vdict (dSet k (.vstr t) h)) from rfl,
    vOk_dict_iff]
  refine ⟨fun _ => keysNodupB_dSet hnd, ?_⟩
  intro a u hm
  rcases (mem_dSet hnd).mp hm with ⟨rfl, rfl⟩ | ⟨_, hmem⟩
  · exact ⟨rfl, rfl⟩
  · exact ⟨rfl, (hw.2 a u hmem).2⟩

theorem prepDlr_false (h : Doc) (t : Chars) :
    prepDlr false h t = dSet (kOf ("created_at")) (.vstr t) h := rfl

theorem wfV_prepDlr {h : Doc} {t : Chars} (hw : wfV (.vdict h) = true) :
    wfV (.vdict (prepDlr false h t)) = true := by
  rw [prepDlr_false]
  exact wfV_dSet_str hw

/-- The stored form of one receipt is a fixed point of both passes. -/
theorem dlrEntry_fixed {h : Doc} {t : Chars} (hw : wfV (.vdict h) = true) :
    replaceNoneElem (dlrEntry false h t) = dlrEntry false h t ∧
    fix_keys (dlrEntry false h t) = dlrEntry false h t := by
  have hwp : wfV (.vdict (prepDlr false h t)) = true := wfV_prepDlr hw
  have hwe : wfV (replaceNoneElem (.vdict (prepDlr false h t))) = true :=
    wfV_replaceNoneElem _ hwp
  have hnf : nullFreeB (dlrEntry false h t) = true :=
    nullFree_fix _ (nullFree_replaceNoneElem _) hwe
  refine ⟨replaceNoneElem_of_nullFree _ hnf, ?_⟩
  show fix_keys (fix_keys (replaceNoneElem (.vdict (prepDlr false h t)))) = _
  exact fix_idem hwe

/-! ## Claim theorems -/

/-- C3 (counterexample): the original claim asserts that after
`fix_keys` no textual key contains `$`, `.` or `-`; but a key with an
interior `$` that does not start with `$`, such as `a$b`, is left
completely unchanged, so the `$` survives. -/
theorem C3_counterexample :
    fix_keys (.vdict [(kOf ("a$b"), .vint 1)]) =
      .vdict [(kOf ("a$b"), .vint 1)] ∧
    keysNoBadAll (fix_keys (.vdict [(kOf ("a$b"), .vint 1)])) = false := by
  exact ⟨rfl, rfl⟩

/-- C3 (amended): for well-formed documents, after `fix_keys` every
textual key at every depth is clean — it does not *start* with `$` and
contains neither `.` nor `-`; moreover a leading `$` causes *every* `$`
in that key to be replaced by `dollar_`, while an interior `$` in a key
not starting with `$` may remain. -/
theorem C3_amended (v : Value) (h : wfV v = true) :
    keysCleanAll (fix_keys v) = true :=
  keysCleanAll_of_sanitized (sanitizedKeys_fix v h)

theorem C3_amended_witness :
    wfV (.vdict [(kOf ("$a.b-c"), .vdict [(kOf ("x.y"), .vnull)])]) = true ∧
    keysCleanAll (fix_keys
      (.vdict [(kOf ("$a.b-c"), .vdict [(kOf ("x.y"), .vnull)])])) = true :=
  ⟨by decide, C3_amended (.vdict [(kOf ("$a.b-c"), .vdict [(kOf ("x.y"), .vnull)])])
    (by decide)⟩

/-- C10: two distinct keys of the same map (`a.b` and `a-b`) rewrite to
the same key `a_b`; `fix_keys` keeps only the later entry's value and
silently drops the other, so the map shrinks from 2 entries to 1. -/
theorem C10_key_collision :
    fix_keys (.vdict [(kOf ("a.b"), .vint 1), (kOf ("a-b"), .vint 2)]) =
      .vdict [(kOf ("a_b"), .vint 2)] ∧
    ([(kOf ("a.b"), .vint 1), (kOf ("a-b"), .vint 2)] : Doc).length = 2 ∧
    ([(kOf ("a_b"), .vint 2)] : Doc).length = 1 := by
  exact ⟨rfl, rfl, rfl⟩

/-- C9: on every container (map or ordered sequence, any nesting),
`replace_none` equals the specification-side normalization — every null
scalar at any depth becomes the string `"None"`, non-null scalars and
the structure are untouched — and the result contains no null at all. -/
theorem C9_null_normalization (d : Value) (h : isContainer d = true) :
    replace_none d = nullNormSpec d ∧ nullFreeB (replace_none d) = true := by
  constructor
  · rw [replace_none_eq_elem_of_container h, replaceNoneElem_eq_nullNormSpec]
  · exact nullFree_replace_none_container h

theorem C9_null_normalization_witness :
    isContainer (.vdict [(kOf ("x"), .vnull), (kOf ("y"), .vlist [.vnull, .vint 3])])
      = true ∧
    (replace_none (.vdict [(kOf ("x"), .vnull), (kOf ("y"), .vlist [.vnull, .vint 3])]) =
      nullNormSpec (.vdict [(kOf ("x"), .vnull), (kOf ("y"), .vlist [.vnull, .vint 3])]) ∧
     nullFreeB (replace_none
      (.vdict [(kOf ("x"), .vnull), (kOf ("y"), .vlist [.vnull, .vint 3])])) = true) :=
  ⟨by decide, C9_null_normalization
    (.vdict [(kOf ("x"), .vnull), (kOf ("y"), .vlist [.vnull, .vint 3])]) (by decide)⟩

/-- C8: both sanitization passes are idempotent on well-formed
documents (duplicate-free dicts, as every Python dict is): re-applying
`replace_none` or `fix_keys` is a no-op, and the composed
`sanitize = fix_keys ∘ replace_none` satisfies
`sanitize (sanitize d) = sanitize d`. -/
theorem C8_idempotent (d : Value) (h : wfV d = true) :
    replace_none (replace_none d) = replace_none d ∧
    fix_keys (fix_keys d) = fix_keys d ∧
    sanitize (sanitize d) = sanitize d :=
  ⟨replace_none_idem d, fix_idem h, sanitize_idem h⟩

theorem C8_idempotent_witness :
    wfV (.vdict [(kOf ("a.b"), .vnull), (kOf ("$x"), .vlist [.vnull])]) = true ∧
    sanitize (sanitize (.vdict [(kOf ("a.b"), .vnull), (kOf ("$x"), .vlist [.vnull])])) =
      sanitize (.vdict [(kOf ("a.b"), .vnull), (kOf ("$x"), .vlist [.vnull])]) :=
  ⟨by decide, (C8_idempotent
    (.vdict [(kOf ("a.b"), .vnull), (kOf ("$x"), .vlist [.vnull])]) (by decide)).2.2⟩

/-- C5: for every chain classified as header-prefixed (`udh`), the
reassembled bytes are the concatenation, in chain order, of each
fragment's body with its first 6 bytes removed, and the page count
equals the chain length. -/
theorem C5_udh_reassembly (p : PduChain) (h : splitMethodOf p = some .udh) :
    (reassemble p).1 =
      ((p.firstBody :: p.restBodies).map (fun b => b.drop 6)).flatten ∧
    (reassemble p).2 = (p.firstBody :: p.restBodies).length := by
  rw [reassemble, h, concatLoop_udh]
  constructor
  · simp
  · simp [Nat.add_comm]

theorem C5_udh_reassembly_witness :
    splitMethodOf samplePdu = some .udh ∧
    ((reassemble samplePdu).1 =
      ((samplePdu.firstBody :: samplePdu.restBodies).map (fun b => b.drop 6)).flatten ∧
     (reassemble samplePdu).2 =
      (samplePdu.firstBody :: samplePdu.restBodies).length) :=
  ⟨by decide, C5_udh_reassembly samplePdu (by decide)⟩

/-- C4: with retries enabled and a bounded budget `max_retries = N > 0`,
the first `N` consecutive connect failures each schedule a reconnect
(no stop); the `(N+1)`-th failure triggers the terminal shutdown exactly
once, and no further reconnect is ever scheduled afterwards. -/
theorem C4_bounded_retries (N k : Nat) (hN : 0 < N) :
    (runFails N ⟨initRetryState true (N : Int), false, 0, 0⟩).stopped = false ∧
    (runFails N ⟨initRetryState true (N : Int), false, 0, 0⟩).reconnects = N ∧
    (runFails N ⟨initRetryState true (N : Int), false, 0, 0⟩).stops = 0 ∧
    (runFails (N + 1 + k) ⟨initRetryState true (N : Int), false, 0, 0⟩).stopped = true ∧
    (runFails (N + 1 + k) ⟨initRetryState true (N : Int), false, 0, 0⟩).stops = 1 ∧
    (runFails (N + 1 + k) ⟨initRetryState true (N : Int), false, 0, 0⟩).reconnects = N := by
  have hprog := runFails_progress N hN N (Nat.le_refl N)
  have h1 : runFails (N + 1) ⟨initRetryState true (N : Int), false, 0, 0⟩ =
      ⟨⟨true, (N : Int) - (N : Int), false⟩, true, N, 1⟩ := by
    rw [runFails_succ_right, hprog, failStep, if_neg (by simp)]
    rw [ConError, reconnectOrStop, if_pos (Or.inr
      ⟨by show (N : Int) - (N : Int) ≤ 0; omega,
       by show ¬((false : Bool) = true); decide⟩)]
  have h2 : runFails (N + 1 + k) ⟨initRetryState true (N : Int), false, 0, 0⟩ =
      ⟨⟨true, (N : Int) - (N : Int), false⟩, true, N, 1⟩ := by
    rw [runFails_add, h1, runFails_stopped rfl]
  refine ⟨?_, ?_, ?_, ?_, ?_, ?_⟩
  · rw [hprog]
  · rw [hprog]
  · rw [hprog]
  · rw [h2]
  · rw [h2]
  · rw [h2]

theorem C4_bounded_retries_witness :
    0 < 2 ∧
    ((runFails 2 ⟨initRetryState true 2, false, 0, 0⟩).stopped = false ∧
     (runFails 2 ⟨initRetryState true 2, false, 0, 0⟩).reconnects = 2 ∧
     (runFails 2 ⟨initRetryState true 2, false, 0, 0⟩).stops = 0 ∧
     (runFails (2 + 1 + 1) ⟨initRetryState true 2, false, 0, 0⟩).stopped = true ∧
     (runFails (2 + 1 + 1) ⟨initRetryState true 2, false, 0, 0⟩).stops = 1 ∧
     (runFails (2 + 1 + 1) ⟨initRetryState true 2, false, 0, 0⟩).reconnects = 2) :=
  ⟨by decide, C4_bounded_retries 2 1 (by decide)⟩

/-- C6: for every Submission event that completes processing, the
stored bill satisfies `amount_charge = amount_rate × page_count` and
`sms_count_charge = sms_count_rate × page_count`, where `page_count` is
exactly the page count produced by fragment reassembly for the same
event (any value, 1 or greater). -/
theorem C6_bill_charges (privacy : Bool) (e : Event) (p : PduChain) (b : Billing)
    (ld ud : Doc) (uid : Chars)
    (hb : e.body = some p)
    (hbill : billingLoads e = some b)
    (hok : processSubmission privacy e = .ok (ld, ud, uid)) :
    ∃ B : Doc,
      dGet (kOf ("bill")) ld = some (.vdict B) ∧
      dGet (kOf ("amount_rate")) B = some (.vrat b.totalAmounts) ∧
      dGet (kOf ("amount_charge")) B =
        some (.vrat (b.totalAmounts * ((reassemble p).2 : Rat))) ∧
      dGet (kOf ("sms_count_rate")) B = some (.vrat b.decrementSubmitSmCount) ∧
      dGet (kOf ("sms_count_charge")) B =
        some (.vrat (b.decrementSubmitSmCount * ((reassemble p).2 : Rat))) ∧
      dGet (kOf ("page_count")) B = some (.vint ((reassemble p).2 : Int)) := by
  simp only [processSubmission, hb, hbill, Except.ok.injEq, Prod.mk.injEq] at hok
  obtain ⟨hld, hud, huid⟩ := hok
  subst hld
  have hnd : keysNodupB (logDataOf privacy e p b) = true := by rfl
  have hcl : ∀ k u, (k, u) ∈ logDataOf privacy e p b → cleanMKey k = true := by
    have hall : (logDataOf privacy e p b).all (fun kv => cleanMKey kv.1) = true := by rfl
    intro k u hm
    exact List.all_eq_true.mp hall (k, u) hm
  have hndB : keysNodupB (buildBill b e p (reassemble p).2) = true := by rfl
  have hclB : ∀ k u, (k, u) ∈ buildBill b e p (reassemble p).2 →
      cleanMKey k = true := by
    have hall : (buildBill b e p (reassemble p).2).all
        (fun kv => cleanMKey kv.1) = true := by rfl
    intro k u hm
    exact List.all_eq_true.mp hall (k, u) hm
  refine ⟨sanitizeDoc (buildBill b e p (reassemble p).2), ?_, ?_, ?_, ?_, ?_, ?_⟩
  · rw [dGet_sanitizeDoc_clean hnd hcl]
    rfl
  · rw [dGet_sanitizeDoc_clean hndB hclB]
    rfl
  · rw [dGet_sanitizeDoc_clean hndB hclB]
    rfl
  · rw [dGet_sanitizeDoc_clean hndB hclB]
    rfl
  · rw [dGet_sanitizeDoc_clean hndB hclB]
    rfl
  · rw [dGet_sanitizeDoc_clean hndB hclB]
    rfl

theorem C6_bill_charges_witness :
    ∃ B : Doc,
      dGet (kOf ("bill")) (ldOf sampleSubmitEvent) = some (.vdict B) ∧
      dGet (kOf ("amount_rate")) B = some (.vrat sampleBilling.totalAmounts) ∧
      dGet (kOf ("amount_charge")) B =
        some (.vrat (sampleBilling.totalAmounts * ((reassemble samplePdu).2 : Rat))) ∧
      dGet (kOf ("sms_count_rate")) B =
        some (.vrat sampleBilling.decrementSubmitSmCount) ∧
      dGet (kOf ("sms_count_charge")) B =
        some (.vrat (sampleBilling.decrementSubmitSmCount *
          ((reassemble samplePdu).2 : Rat))) ∧
      dGet (kOf ("page_count")) B = some (.vint ((reassemble samplePdu).2 : Int)) :=
  C6_bill_charges false sampleSubmitEvent samplePdu sampleBilling
    (ldOf sampleSubmitEvent) (udOf sampleSubmitEvent) (uidOf sampleSubmitEvent)
    rfl rfl rfl

/-- C2 (counterexample): for a Submission whose data-coding identifier
is absent, the claim says the stored decoded field is the raw bytes
decoded as UTF-8 and the stored `data_coding` stays null; the code in
fact stores the raw *bytes* object undecoded, and null normalization
turns the stored `data_coding` into the string `"None"`. -/
theorem C2_counterexample :
    dGet (kOf ("short_message_decoded")) (ldOf sampleSubmitEvent) =
      some (.vbytes [65, 66, 67, 68]) ∧
    Value.vbytes [65, 66, 67, 68] ≠ .vstr (utf8DecodeReplace [65, 66, 67, 68]) ∧
    dGet (kOf ("data_coding")) (ldOf sampleSubmitEvent) =
      some (.vstr ("None".data)) ∧
    Value.vstr ("None".data) ≠ .vnull := by
  have hld : ldOf sampleSubmitEvent =
      sanitizeDoc (logDataOf false sampleSubmitEvent samplePdu sampleBilling) := rfl
  have hnd : keysNodupB (logDataOf false sampleSubmitEvent samplePdu sampleBilling)
      = true := by rfl
  have hcl : ∀ k u,
      (k, u) ∈ logDataOf false sampleSubmitEvent samplePdu sampleBilling →
      cleanMKey k = true := by
    have hall : (logDataOf false sampleSubmitEvent samplePdu sampleBilling).all
        (fun kv => cleanMKey kv.1) = true := by rfl
    intro k u hm
    exact List.all_eq_true.mp hall (k, u) hm
  refine ⟨?_, by decide, ?_, by decide⟩
  · rw [hld, dGet_sanitizeDoc_clean hnd hcl]
    rfl
  · rw [hld, dGet_sanitizeDoc_clean hnd hcl]
    rfl

/-- C2 (amended): for every Submission event whose data-coding
identifier is absent (and privacy off), the stored decoded-message
field is the raw short-message bytes *unchanged* — no decoding is
applied — and the stored `data_coding` field is the string `"None"`
produced by null normalization, not null. -/
theorem C2_amended (e : Event) (p : PduChain) (b : Billing)
    (ld ud : Doc) (uid : Chars)
    (hb : e.body = some p)
    (hdc : p.data_coding = none)
    (hbill : billingLoads e = some b)
    (hok : processSubmission false e = .ok (ld, ud, uid)) :
    dGet (kOf ("short_message_decoded")) ld = some (.vbytes (reassemble p).1) ∧
    dGet (kOf ("data_coding")) ld = some (.vstr ("None".data)) := by
  simp only [processSubmission, hb, hbill, Except.ok.injEq, Prod.mk.injEq] at hok
  obtain ⟨hld, hud, huid⟩ := hok
  subst hld
  have hnd : keysNodupB (logDataOf false e p b) = true := by rfl
  have hcl : ∀ k u, (k, u) ∈ logDataOf false e p b → cleanMKey k = true := by
    have hall : (logDataOf false e p b).all (fun kv => cleanMKey kv.1) = true := by rfl
    intro k u hm
    exact List.all_eq_true.mp hall (k, u) hm
  constructor
  · have h1 : dGet (kOf ("short_message_decoded"))
        (sanitizeDoc (logDataOf false e p b)) =
        some (fix_keys (replaceNoneElem
          (decodeShortMessage p.data_coding (reassemble p).1))) := by
      rw [dGet_sanitizeDoc_clean hnd hcl]
      rfl
    rw [h1, hdc]
    rfl
  · have h1 : dGet (kOf ("data_coding")) (sanitizeDoc (logDataOf false e p b)) =
        some (fix_keys (replaceNoneElem
          (match p.data_coding with | none => .vnull | some n => .vint n))) := by
      rw [dGet_sanitizeDoc_clean hnd hcl]
      rfl
    rw [h1, hdc]
    rfl

theorem C2_amended_witness :
    dGet (kOf ("short_message_decoded")) (ldOf sampleSubmitEvent) =
      some (.vbytes (reassemble samplePdu).1) ∧
    dGet (kOf ("data_coding")) (ldOf sampleSubmitEvent) =
      some (.vstr ("None".data)) :=
  C2_amended sampleSubmitEvent samplePdu sampleBilling
    (ldOf sampleSubmitEvent) (udOf sampleSubmitEvent) (uidOf sampleSubmitEvent)
    rfl rfl rfl rfl

theorem processDlr_eq (privacy : Bool) (mid : Chars) (headers : Doc) (now : Chars)
    (S : Store) :
    processDlr privacy mid headers now S =
      match popDlrList ((get_one_submodule mid S).getD []) with
      | none => none
      | some xs => some (update_one mid (sanitizeDoc [(kOf ("dlr"),
          .vlist (xs ++ [.vdict (prepDlr privacy headers now)]))]) S) := rfl

/-- C1 (counterexample): an inbound submission whose pickled body is
undecodable makes the consumer loop abort: nothing is acknowledged (in
particular not the failing event), and control falls through to the
stop-or-reconnect block of the broker supervisor — contradicting the
claim that such a failure is confined to the per-event boundary. -/
theorem C1_counterexample :
    (gotConnectionRun false (initRetryState true 5) [badSubmitEvent] dbEmpty).1.acked
      = [] ∧
    (gotConnectionRun false (initRetryState true 5) [badSubmitEvent] dbEmpty).1.aborted
      = true ∧
    (gotConnectionRun false (initRetryState true 5) [badSubmitEvent] dbEmpty).2 =
      some (.reconnect, ⟨true, 4, false⟩) ∧
    ([] : List Chars) ≠ [badSubmitEvent.message_id] := by
  refine ⟨rfl, rfl, rfl, by decide⟩

/-- C1 (amended): a content-processing failure is caught by the
`try`/`except` wrapping the whole consume loop: the exception does not
escape `gotConnection`, but the loop exits at the failing event — only
the events before it are acknowledged, the failing event is not — and
control falls through into the BrokerSupervisor stop-or-reconnect
decision, exactly as for a transport failure. -/
theorem C1_amended (privacy : Bool) (rs : RetryState) (goods : List Event)
    (bad : Event) (rest : List Event) (db : DB)
    (hgood : (consumeLoop privacy goods db).aborted = false)
    (hbad : processEvent privacy bad (consumeLoop privacy goods db).db = .error ()) :
    (gotConnectionRun privacy rs (goods ++ bad :: rest) db).1.acked =
      goods.map (fun e => e.message_id) ∧
    (gotConnectionRun privacy rs (goods ++ bad :: rest) db).1.aborted = true ∧
    (gotConnectionRun privacy rs (goods ++ bad :: rest) db).2 =
      some (reconnectOrStop rs) := by
  have h := consumeLoop_append_fail privacy goods bad rest db hgood hbad
  refine ⟨?_, ?_, ?_⟩
  · show (consumeLoop privacy (goods ++ bad :: rest) db).acked = _
    rw [h]
  · show (consumeLoop privacy (goods ++ bad :: rest) db).aborted = true
    rw [h]
  · show (if (consumeLoop privacy (goods ++ bad :: rest) db).aborted = true
        then some (reconnectOrStop rs) else none) = some (reconnectOrStop rs)
    rw [h]
    rfl

theorem C1_amended_witness :
    (gotConnectionRun false (initRetryState true 5)
        ([unknownEvent] ++ badSubmitEvent :: []) dbEmpty).1.acked =
      [unknownEvent].map (fun e => e.message_id) ∧
    (gotConnectionRun false (initRetryState true 5)
        ([unknownEvent] ++ badSubmitEvent :: []) dbEmpty).1.aborted = true ∧
    (gotConnectionRun false (initRetryState true 5)
        ([unknownEvent] ++ badSubmitEvent :: []) dbEmpty).2 =
      some (reconnectOrStop (initRetryState true 5)) :=
  C1_amended false (initRetryState true 5) [unknownEvent] badSubmitEvent []
    dbEmpty rfl rfl

/-- C7: two DeliveryReceipt events for the same `messageId` produce a
stored `dlr` list of length 2 in arrival order, the first entry kept
intact; and when no per-message document exists, an empty shell is
created implicitly so the first receipt is appended to an initially
empty list. -/
theorem C7_dlr_append (h1 h2 : Doc) (t1 t2 mid : Chars)
    (hw1 : wfV (.vdict h1) = true) :
    ∃ S1 S2 : Store,
      processDlr false mid h1 t1 [] = some S1 ∧
      get_one_submodule mid S1 =
        some [(kOf ("dlr"), .vlist [dlrEntry false h1 t1])] ∧
      processDlr false mid h2 t2 S1 = some S2 ∧
      get_one_submodule mid S2 =
        some [(kOf ("dlr"), .vlist [dlrEntry false h1 t1, dlrEntry false h2 t2])] := by
  obtain ⟨he1r, he1f⟩ := @dlrEntry_fixed h1 t1 hw1
  have hsan1 : sanitizeDoc [(kOf ("dlr"),
      .vlist ([] ++ [.vdict (prepDlr false h1 t1)]))] =
      [(kOf ("dlr"), .vlist [dlrEntry false h1 t1])] := by
    rw [sanitizeDoc_dlr_single]
    rfl
  have hS1 : processDlr false mid h1 t1 [] =
      some [(mid, [(kOf ("dlr"), .vlist [dlrEntry false h1 t1])])] := by
    rw [processDlr_eq]
    show some (update_one mid (sanitizeDoc [(kOf ("dlr"),
        .vlist ([] ++ [.vdict (prepDlr false h1 t1)]))]) []) = _
    rw [hsan1]
    rfl
  have hval2 : fix_keys (replaceNoneElem (.vlist
      ([dlrEntry false h1 t1] ++ [.vdict (prepDlr false h2 t2)]))) =
      .vlist [dlrEntry false h1 t1, dlrEntry false h2 t2] := by
    show Value.vlist [fix_keys (replaceNoneElem (dlrEntry false h1 t1)),
      fix_keys (replaceNoneElem (.vdict (prepDlr false h2 t2)))] = _
    rw [he1r, he1f]
    rfl
  have hsan2 : sanitizeDoc [(kOf ("dlr"),
      .vlist ([dlrEntry false h1 t1] ++ [.vdict (prepDlr false h2 t2)]))] =
      [(kOf ("dlr"), .vlist [dlrEntry false h1 t1, dlrEntry false h2 t2])] := by
    rw [sanitizeDoc_dlr_single, hval2]
  have hq : get_one_submodule mid
      [(mid, [(kOf ("dlr"), .vlist [dlrEntry false h1 t1])])] =
      some [(kOf ("dlr"), .vlist [dlrEntry false h1 t1])] :=
    get_one_submodule_single
  have hS2 : processDlr false mid h2 t2
      [(mid, [(kOf ("dlr"), .vlist [dlrEntry false h1 t1])])] =
      some [(mid, [(kOf ("dlr"),
        .vlist [dlrEntry false h1 t1, dlrEntry false h2 t2])])] := by
    rw [processDlr_eq, hq]
    show some (update_one mid (sanitizeDoc [(kOf ("dlr"),
        .vlist ([dlrEntry false h1 t1] ++ [.vdict (prepDlr false h2 t2)]))])
        [(mid, [(kOf ("dlr"), .vlist [dlrEntry false h1 t1])])]) = _
    rw [hsan2, update_one_single]
    rfl
  exact ⟨_, _, hS1, get_one_submodule_single, hS2, get_one_submodule_single⟩

theorem C7_dlr_append_witness :
    ∃ S1 S2 : Store,
      processDlr false ("m1".data) sampleDlrHeaders ("t1".data) [] = some S1 ∧
      get_one_submodule ("m1".data) S1 =
        some [(kOf ("dlr"), .vlist [dlrEntry false sampleDlrHeaders ("t1".data)])] ∧
      processDlr false ("m1".data) sampleDlrHeaders ("t2".data) S1 = some S2 ∧
      get_one_submodule ("m1".data) S2 =
        some [(kOf ("dlr"), .vlist [dlrEntry false sampleDlrHeaders ("t1".data),
          dlrEntry false sampleDlrHeaders ("t2".data)])] :=
  C7_dlr_append sampleDlrHeaders sampleDlrHeaders ("t1".data) ("t2".data)
    ("m1".data) (by decide)

end JasminMongoLogger
